import Mathlib

/-!
# Verification of `opt_einsum_fx`'s graph rewrite pass

Shallow embedding of `src/opt_einsum_fx/_opt_ein.py` (`optimize_einsums_graph`).

The embedding models:
* `torch.fx` graphs as ordered lists of nodes (`Node`, `Graph`); node names are
  either user names (from the traced program) or generated names (`NName.gen`)
  standing for the fresh names `fx` assigns to nodes created through `Proxy`
  tracing.  `fx` guarantees generated names never collide with existing ones.
* the rewrite `optimize_einsums_graph`, translated statement by statement from
  the source: for each node, if it is a `call_function` on an einsum entry
  point, read `a.shape` of every argument after the index string (AttributeError
  when missing leads to a warning and the node being copied verbatim); otherwise
  call `opt_einsum.contract_path` and splice the resulting contraction list into
  the new graph via proxy retracing; all other nodes go through
  `Graph.node_copy` with `lambda x: env[x.name]`.  `new_graph.lint()` runs at
  the end.  Python exceptions (KeyError, IndexError, TypeError, ValueError)
  become the `Except RErr` monad.
* the external collaborators (`opt_einsum.contract_path` with `shapes=True`,
  and `opt_einsum.contract._core_contract` driving graph construction through
  proxies) are modelled from the spec's description of the Path Optimizer and
  Contraction Expander: validation of the index string against the operand
  shapes, and expansion of the einsum into an ordered sequence of elementary
  pairwise contraction steps, each becoming one new graph node.  The pairwise
  order is taken left to right; the equivalence of the emitted chain with the
  original einsum is *proved*, not assumed, so the results do not depend on
  which (valid) order the real optimizer picks.
* integer-valued tensors with exact arithmetic stand in for floating point
  tensors; "equality within floating-point tolerance" becomes exact equality
  (reassociation of exact sums is exact).
-/

set_option maxHeartbeats 1600000

/-! ## Graph data model (`torch.fx.Graph` / `torch.fx.Node`) -/

/-- Node names: names of nodes of the traced input graph (`user`), and the
fresh names `fx` generates for nodes created during proxy retracing (`gen`,
indexed by creation order). -/
inductive NName where
  | user (s : String)
  | gen (k : Nat)
deriving DecidableEq, Repr

/-- A positional or keyword argument of a node: a string literal (such as the
einsum index string), a number literal, or a reference to another node. -/
inductive Arg where
  | lit (cs : List Char)
  | num (i : Int)
  | node (n : NName)
deriving DecidableEq, Repr

/-- A `torch.fx.Node`: operation kind (`placeholder`, `call_function`,
`output`, ...), target, positional and keyword arguments, and the optional
shape annotation attached by `ShapeProp` (`node.shape`). -/
structure Node where
  name : NName
  op : String
  target : String
  args : List Arg
  kwargs : List (String × Arg)
  shape : Option (List Nat)
deriving DecidableEq, Repr

/-- A `torch.fx.Graph`: an ordered sequence of nodes. -/
abbrev Graph := List Node

/-- `_EINSUM_FUNCS = {torch.functional.einsum, torch.einsum}`. -/
def EINSUM_FUNCS : List String := ["torch.functional.einsum", "torch.einsum"]

/-- Does the node match `node.op == "call_function" and node.target in
_EINSUM_FUNCS`? -/
def isEinsumCall (n : Node) : Bool :=
  n.op == "call_function" && EINSUM_FUNCS.contains n.target

/-- Find a node of the graph by name. -/
def findNode (g : Graph) (nm : NName) : Option Node :=
  g.find? (fun n => n.name == nm)

/-- `a.shape` of one argument object: only a node reference carrying a shape
annotation has one; anything else raises AttributeError (modelled as `none`). -/
def argShape (g : Graph) : Arg → Option (List Nat)
  | .node nm => (findNode g nm).bind Node.shape
  | _ => none

/-- `[a.shape for a in args]`: `none` models the AttributeError raised as soon
as any argument lacks a shape. -/
def argShapes (g : Graph) (as' : List Arg) : Option (List (List Nat)) :=
  as'.mapM (argShape g)

/-! ## Index-string parsing (shared by the optimizer model and the einsum
semantics; mirrors the numpy/opt_einsum einsum conventions) -/

/-- Split a character list at commas. -/
def splitOnComma : List Char → List (List Char)
  | [] => [[]]
  | c :: cs =>
    let r := splitOnComma cs
    if c = ',' then [] :: r
    else
      match r with
      | [] => [[c]]
      | gp :: gps => (c :: gp) :: gps

/-- Split at the first `"->"`, if any. -/
def findArrow : List Char → Option (List Char × List Char)
  | [] => none
  | [_] => none
  | c :: d :: rest =>
    if c = '-' ∧ d = '>' then some ([], rest)
    else (findArrow (d :: rest)).map (fun p => (c :: p.1, p.2))

/-- Insert a character into a sorted list. -/
def insertCh (c : Char) : List Char → List Char
  | [] => [c]
  | d :: ds => if c ≤ d then c :: d :: ds else d :: insertCh c ds

/-- Insertion sort on characters (for the implicit-output einsum convention:
output labels are the labels occurring exactly once, alphabetically). -/
def insSort : List Char → List Char
  | [] => []
  | c :: cs => insertCh c (insSort cs)

/-- A parsed einsum specification: one index string per operand, plus the
output index string. -/
structure EinSpec where
  inputs : List (List Char)
  out : List Char
deriving DecidableEq, Repr

/-- Parse an einsum index string.  With `"->"` the output is explicit; without
it the output is the alphabetically sorted list of labels occurring exactly
once (the implicit convention, e.g. `"ii"` is a trace).  More than one `"->"`
is rejected. -/
def parseEinstr (cs : List Char) : Option EinSpec :=
  match findArrow cs with
  | some (lhs, rhs) =>
    if (findArrow rhs).isSome then none
    else some ⟨splitOnComma lhs, rhs⟩
  | none =>
    let gs := splitOnComma cs
    let flat := gs.foldr (· ++ ·) []
    some ⟨gs, insSort (flat.filter (fun c => flat.count c = 1))⟩

/-! ## Errors (Python exceptions crossing `optimize_einsums_graph`) -/

/-- Python exceptions that can escape the rewrite: `KeyError` from an `env`
lookup, `IndexError` from `node.args[0]`, `TypeError`/`ValueError` raised by
`opt_einsum.contract_path`, and the exception raised by `new_graph.lint()`. -/
inductive RErr where
  | keyError (n : NName)
  | indexError (n : NName)
  | typeError (s : String)
  | valueError (s : String)
  | lintError
deriving DecidableEq, Repr

/-! ## The Path Optimizer model (`opt_einsum.contract_path(..., shapes=True)`)

`opt_einsum` is an external collaborator; this model performs the validation
it documents (parse failure, operand count mismatch, ndim mismatch,
inconsistent sizes for a repeated label, bad output labels) and returns the
validated specification, from which the contraction list is derived. -/

/-- Every occurrence of every label must be assigned a consistent dimension,
and each operand's index string must match its rank. -/
def checkSizes (ops : List (List Char × List Nat)) : Bool :=
  let pairs := (ops.map (fun p => p.1.zip p.2)).foldr (· ++ ·) []
  ops.all (fun p => p.1.length == p.2.length) &&
  pairs.all (fun q => pairs.all (fun q' => !(q.1 == q'.1) || q.2 == q'.2))

/-- Model of `opt_einsum.contract_path(einstr, *shapes, shapes=True)`:
validates the index string against the operand shapes; errors model the
`TypeError`/`ValueError` exceptions `opt_einsum` raises. -/
def contract_path (cs : List Char) (shapes : List (List Nat)) :
    Except RErr EinSpec :=
  match parseEinstr cs with
  | none => .error (.valueError "einstr: invalid subscripts")
  | some spec =>
    if !(spec.inputs.all (fun s => s.all Char.isAlpha) &&
         spec.out.all Char.isAlpha) then
      .error (.valueError "einstr: invalid character")
    else if spec.inputs.length ≠ shapes.length then
      .error (.valueError "operand count mismatch")
    else if !((spec.inputs.zip shapes).all fun p => p.1.length == p.2.length) then
      .error (.valueError "operand rank mismatch")
    else if !(checkSizes (spec.inputs.zip shapes)) then
      .error (.valueError "inconsistent sizes")
    else if !(spec.out.all (fun c => (spec.inputs.foldr (· ++ ·) []).contains c)) then
      .error (.valueError "output label does not appear in input")
    else if !(spec.out.Nodup) then
      .error (.valueError "repeated output label")
    else .ok spec

/-! ## The Contraction Expander model (`_core_contract` over proxies)

Per the spec, the contraction list is "an ordered sequence of elementary
contraction steps (each step: which operand positions combine, the resulting
index labels)", and every elementary step becomes one new node appended to the
output graph.  Operands combine pairwise left to right; a combining step keeps
exactly the labels still needed by later operands or the output. -/

/-- First-occurrence deduplication. -/
def uniqAux (seen : List Char) : List Char → List Char
  | [] => []
  | c :: cs => if seen.contains c then uniqAux seen cs
               else c :: uniqAux (c :: seen) cs

/-- Deduplicate, keeping first occurrences. -/
def uniq : List Char → List Char := uniqAux []

/-- Labels of the combined operand that must be kept by an intermediate
contraction step: those appearing in a later operand or in the output. -/
def stepKeep (s1 s2 : List Char) (restS : List (List Char)) (out : List Char) :
    List Char :=
  (uniq (s1 ++ s2)).filter
    (fun c => (restS.foldr (· ++ ·) []).contains c || out.contains c)

/-- Join index strings with commas. -/
def joinComma : List (List Char) → List Char
  | [] => []
  | [s] => s
  | s :: s2 :: ss => s ++ ',' :: joinComma (s2 :: ss)

/-- Render a specification back into an index string. -/
def encodeEinstr (ss : List (List Char)) (out : List Char) : List Char :=
  joinComma ss ++ ('-' :: '>' :: out)

/-- One elementary contraction node appended to the output graph (the graph
node created when `_core_contract` dispatches an elementary contraction on
proxies). -/
def mkChainNode (k : Nat) (ss : List (List Char)) (res : List Char)
    (ops : List Arg) : Node :=
  { name := .gen k, op := "call_function", target := "torch.einsum",
    args := .lit (encodeEinstr ss res) :: ops,
    kwargs := [], shape := none }

/-- Expand a contraction into elementary pairwise steps, left to right,
appending one node per step; `acc` is the running operand (index string and
graph argument holding its value).  Returns the emitted nodes, the name of
the node holding the final result, and the updated fresh-name counter. -/
def emitChainAux (acc : List Char × Arg) :
    List (List Char × Arg) → List Char → Nat → (List Node × NName × Nat)
  | [], out, ctr => ([mkChainNode ctr [acc.1] out [acc.2]], .gen ctr, ctr + 1)
  | [(s2, a2)], out, ctr =>
      ([mkChainNode ctr [acc.1, s2] out [acc.2, a2]], .gen ctr, ctr + 1)
  | (s2, a2) :: p :: ps, out, ctr =>
      let keep := stepKeep acc.1 s2 ((p :: ps).map Prod.fst) out
      let nd := mkChainNode ctr [acc.1, s2] keep [acc.2, a2]
      let r := emitChainAux (keep, Arg.node (.gen ctr)) (p :: ps) out (ctr + 1)
      (nd :: r.1, r.2)

/-- Expand a contraction into its chain of elementary contraction nodes. -/
def emitChain : List (List Char × Arg) → List Char → Nat →
    (List Node × NName × Nat)
  | [], _, ctr => ([], .gen ctr, ctr)
  | q :: qs, out, ctr => emitChainAux q qs out ctr

/-! ## The rewrite pass (`optimize_einsums_graph`) -/

/-- The environment mapping `env` from original node names to the
corresponding node of the new graph (identified by name). -/
def lookupEnv (env : List (NName × NName)) (k : NName) : Option NName :=
  (env.find? (fun p => p.1 == k)).map Prod.snd

/-- `lambda x: env[x.name] if isinstance(x, Node) else x`; a missing entry is
Python's KeyError. -/
def mapArg (env : List (NName × NName)) : Arg → Except RErr Arg
  | .node nm =>
    match lookupEnv env nm with
    | some nw => .ok (.node nw)
    | none => .error (.keyError nm)
  | a => .ok a

/-- `new_graph.node_copy(node, lambda x: env[x.name])`: same name, op, target;
positional and keyword arguments remapped through `env` (`fx.node_copy` does
not carry the `ShapeProp` attributes over to the copied node). -/
def node_copy (env : List (NName × NName)) (n : Node) : Except RErr Node :=
  match n.args.mapM (mapArg env),
        n.kwargs.mapM (fun p => (mapArg env p.2).map (fun a => (p.1, a))) with
  | .error e, _ => .error e
  | _, .error e => .error e
  | .ok args, .ok kwargs =>
    .ok { n with args := args, kwargs := kwargs, shape := none }

/-- The rewrite state: the nodes of `new_graph` so far, `env`, the fresh-name
counter, and the warnings emitted so far (one entry per warned call-site,
recorded by node name). -/
structure RSt where
  out : List Node
  env : List (NName × NName)
  ctr : Nat
  warns : List NName
deriving Repr, DecidableEq

/-- Default case of the loop: `new_graph.node_copy(node, lambda x:
env[x.name])`, recording `env[node.name] = new_node`; `w` carries the warning
just emitted when this copy is the fall-through of an einsum whose operand
shapes could not be read. -/
def copyInto (st : RSt) (n : Node) (w : List NName) : Except RErr RSt :=
  match node_copy st.env n with
  | .error e => .error e
  | .ok m => .ok ⟨st.out ++ [m], (n.name, m.name) :: st.env, st.ctr,
                  st.warns ++ w⟩

/-- The einsum branch once shapes have been read: `opt_einsum.contract_path`
on the index string (`node.args[0]`), proxy wrapping of the arguments through
`env`, and `_core_contract` appending the elementary contraction chain. -/
def expandEinsum (st : RSt) (n : Node) (shapes : List (List Nat)) :
    Except RErr RSt :=
  match n.args with
  | [] => .error (.indexError n.name)  -- node.args[0]
  | a0 :: _ =>
    match a0 with
    | .lit cs =>
      match contract_path cs shapes with
      | .error e => .error e
      | .ok spec =>
        -- proxy_args = [Proxy(env[x.name]) if isinstance(x, Node) else x
        --               for x in node.args]
        match n.args.mapM (mapArg st.env) with
        | .error e => .error e
        | .ok pargs =>
          -- output_proxy = _core_contract(proxy_args[1:],
          --                               path_info.contraction_list, ...)
          let r := emitChain (spec.inputs.zip (pargs.drop 1)) spec.out st.ctr
          .ok ⟨st.out ++ r.1, (n.name, r.2.1) :: st.env, r.2.2, st.warns⟩
    | _ => .error (.typeError "einstr is not a string")

/-- Process one node of the input graph, mirroring one iteration of the loop
in `optimize_einsums_graph`: einsum call-sites with full operand shape
information are expanded to a chain of elementary contractions; an einsum
whose operand shapes cannot all be read triggers a warning
(`warnings.warn(..., RuntimeWarning)`) and falls through to the default copy;
every other node is copied through `node_copy`. -/
def stepNode (g : Graph) (st : RSt) (n : Node) : Except RErr RSt :=
  if isEinsumCall n then
    match argShapes g (n.args.drop 1) with
    | none => copyInto st n [n.name]
    | some shapes => expandEinsum st n shapes
  else copyInto st n []

/-- The loop `for node in graph.nodes`. -/
def processNodes (g : Graph) : List Node → RSt → Except RErr RSt
  | [], st => .ok st
  | n :: ns, st => (stepNode g st n).bind (processNodes g ns)

/-- Names a node references through its positional and keyword arguments. -/
def nodeRefs (n : Node) : List NName :=
  (n.args ++ n.kwargs.map Prod.snd).filterMap
    (fun a => match a with | .node nm => some nm | _ => none)

/-- `new_graph.lint()`: every argument reference resolves to a node appearing
earlier in the graph (referential integrity plus topological order, which also
rules out cycles). -/
def lintAux : List NName → List Node → Bool
  | _, [] => true
  | seen, n :: ns => (nodeRefs n).all seen.contains && lintAux (n.name :: seen) ns

/-- Structural validation of a graph (`Graph.lint`). -/
def lint (g : Graph) : Bool := lintAux [] g

/-- The initial rewrite state: `new_graph = fx.Graph()`, `env = {}`. -/
def initRSt : RSt := ⟨[], [], 0, []⟩

/-- `optimize_einsums_graph(graph)`: the full rewrite pass.  Returns the new
graph together with the list of warned call-sites, or the first exception
raised. -/
def optimize_einsums_graph (g : Graph) : Except RErr (Graph × List NName) :=
  match processNodes g g initRSt with
  | .error e => .error e
  | .ok st => if lint st.out then .ok (st.out, st.warns) else .error .lintError

/-! ## Tensor semantics

Integer-valued tensors; an einsum evaluator giving the standard semantics of
the index-string convention (sum over labels absent from the output of the
product of operand entries). -/

/-- A tensor: a shape and a total entry function on multi-indices. -/
structure Tensor where
  shape : List Nat
  data : List Nat → Int

/-- Update an index assignment at one label. -/
def updAsn (σ : Char → Nat) (c : Char) (v : Nat) : Char → Nat :=
  fun d => if d = c then v else σ d

/-- Sum a function of a label assignment over all values of the given labels,
each ranging below its extent. -/
def sumOver (ext : Char → Nat) : List Char → ((Char → Nat) → Int) →
    (Char → Nat) → Int
  | [], f, σ => f σ
  | c :: cs, f, σ => ∑ v ∈ Finset.range (ext c), sumOver ext cs f (updAsn σ c v)

/-- Position of the first occurrence of a character. -/
def firstIdx (c : Char) : List Char → Option Nat
  | [] => none
  | d :: ds => if d = c then some 0 else (firstIdx c ds).map (· + 1)

/-- Dimension assigned to a label by one operand's index string and shape. -/
def dimOf (c : Char) (s : List Char) (sh : List Nat) : Option Nat :=
  (firstIdx c s).bind (fun i => sh.get? i)

/-- The extent of each label: the dimension at its first occurrence. -/
def extent : List (List Char × List Nat) → Char → Nat
  | [], _ => 0
  | (s, sh) :: rest, c =>
    match dimOf c s sh with
    | some d => d
    | none => extent rest c

/-- Product of the operand entries selected by a label assignment. -/
def prodOps (ops : List (List Char × Tensor)) (σ : Char → Nat) : Int :=
  (ops.map (fun p => p.2.data (p.1.map σ))).prod

/-- The label assignment determined by the output index string and an output
multi-index. -/
def baseAssign (out : List Char) (oidx : List Nat) : Char → Nat :=
  fun c =>
    match firstIdx c out with
    | some i => oidx.getD i 0
    | none => 0

/-- The labels summed over: all operand labels not in the output, in order of
first appearance. -/
def summedLabels (ss : List (List Char)) (out : List Char) : List Char :=
  (uniq (ss.foldr (· ++ ·) [])).filter (fun c => !(out.contains c))

/-- Einsum semantics: entry `o` of the result is the sum over all assignments
of the summed labels of the product of operand entries. -/
def einsumEval (ops : List (List Char × Tensor)) (out : List Char) : Tensor :=
  let E := extent (ops.map (fun p => (p.1, p.2.shape)))
  ⟨out.map E, fun oidx =>
    sumOver E (summedLabels (ops.map Prod.fst) out) (prodOps ops)
      (baseAssign out oidx)⟩

/-! ## Graph execution -/

/-- A runtime object: what an `Arg` denotes during execution. -/
inductive Obj where
  | int (i : Int)
  | str (cs : List Char)
  | tensor (t : Tensor)

/-- Semantics of the graph operations this pass does not interpret (arbitrary
pure ops such as `operator.add`, `operator.getitem`, `call_method`, ...),
keyed by op kind and target. -/
def Interp : Type :=
  String → String → List Obj → List (String × Obj) → Option Tensor

/-- Execution state: the value environment, the remaining positional inputs
(consumed by `placeholder` nodes), and the returned object once the `output`
node has run. -/
structure ExecSt where
  venv : List (NName × Tensor)
  inputs : List Tensor
  ret : Option Obj

/-- Look up a node's runtime value. -/
def lookupV (venv : List (NName × Tensor)) (k : NName) : Option Tensor :=
  (venv.find? (fun p => p.1 == k)).map Prod.snd

/-- The runtime object denoted by an argument. -/
def resolveObj (venv : List (NName × Tensor)) : Arg → Option Obj
  | .lit cs => some (.str cs)
  | .num i => some (.int i)
  | .node nm => (lookupV venv nm).map .tensor

/-- Coerce an object to a tensor. -/
def asTensor : Obj → Option Tensor
  | .tensor t => some t
  | _ => none

/-- Execute one node: placeholders consume inputs, the output node records the
returned object, einsum call-sites evaluate `einsumEval`, and every other node
is delegated to the ambient interpretation. -/
def execNode (ip : Interp) (st : ExecSt) (n : Node) : Option ExecSt :=
  if n.op == "placeholder" then
    match st.inputs with
    | [] => none
    | t :: ts => some ⟨(n.name, t) :: st.venv, ts, st.ret⟩
  else if n.op == "output" then
    match n.args with
    | [a] => (resolveObj st.venv a).map
        (fun o => ⟨st.venv, st.inputs,
                   match st.ret with | none => some o | some r => some r⟩)
    | _ => none
  else if isEinsumCall n then
    match n.args with
    | .lit cs :: rest =>
      match parseEinstr cs with
      | none => none
      | some spec =>
        match rest.mapM (fun a => (resolveObj st.venv a).bind asTensor) with
        | none => none
        | some ts =>
          -- torch.einsum validates the operand count and each operand's rank
          -- against the index string before computing
          if spec.inputs.length = ts.length ∧
             (spec.inputs.zip ts).all
               (fun p => p.1.length == p.2.shape.length) then
            some ⟨(n.name, einsumEval (spec.inputs.zip ts) spec.out) :: st.venv,
                  st.inputs, st.ret⟩
          else none
    | _ => none
  else
    match n.args.mapM (resolveObj st.venv),
          n.kwargs.mapM (fun p => (resolveObj st.venv p.2).map ((p.1, ·))) with
    | some objs, some kvs =>
      (ip n.op n.target objs kvs).map
        (fun t => ⟨(n.name, t) :: st.venv, st.inputs, st.ret⟩)
    | _, _ => none

/-- Execute a list of nodes in order. -/
def execNodes (ip : Interp) : List Node → ExecSt → Option ExecSt
  | [], st => some st
  | n :: ns, st => (execNode ip st n).bind (execNodes ip ns)

/-- Execute a graph on a list of inputs, returning the object delivered to the
`output` node. -/
def execute (ip : Interp) (g : Graph) (inputs : List Tensor) : Option Obj :=
  (execNodes ip g ⟨[], inputs, none⟩).bind ExecSt.ret


/-! ## Basic toolkit lemmas about the rewrite fold -/

theorem exceptBind_ok {α β ε : Type} (a : α) (f : α → Except ε β) :
    (Except.ok a : Except ε α).bind f = f a := rfl

theorem exceptBind_err {α β ε : Type} (e : ε) (f : α → Except ε β) :
    (Except.error e : Except ε α).bind f = .error e := rfl

theorem processNodes_append (g : Graph) (l1 l2 : List Node) (st : RSt) :
    processNodes g (l1 ++ l2) st
      = (processNodes g l1 st).bind (processNodes g l2) := by
  induction l1 generalizing st with
  | nil => rfl
  | cons n ns ih =>
    simp only [List.cons_append, processNodes]
    cases stepNode g st n with
    | error e => rfl
    | ok st1 => simp [exceptBind_ok, ih]

theorem execNodes_append (ip : Interp) (l1 l2 : List Node) (st : ExecSt) :
    execNodes ip (l1 ++ l2) st
      = (execNodes ip l1 st).bind (execNodes ip l2) := by
  induction l1 generalizing st with
  | nil => rfl
  | cons n ns ih =>
    simp only [List.cons_append, execNodes]
    cases execNode ip st n with
    | none => rfl
    | some st1 => simp [ih]

theorem emitChainAux_ctr_le (q : List Char × Arg)
    (qs : List (List Char × Arg)) (out : List Char) (ctr : Nat) :
    ctr ≤ (emitChainAux q qs out ctr).2.2 := by
  induction qs generalizing q ctr with
  | nil => simp [emitChainAux]
  | cons p ps ih =>
    cases ps with
    | nil =>
      obtain ⟨s2, a2⟩ := p
      simp [emitChainAux]
    | cons p2 ps2 =>
      obtain ⟨s2, a2⟩ := p
      simp only [emitChainAux]
      exact le_trans (Nat.le_succ _) (ih _ _)

theorem emitChain_ctr_le (ops : List (List Char × Arg)) (out : List Char)
    (ctr : Nat) : ctr ≤ (emitChain ops out ctr).2.2 := by
  cases ops with
  | nil => simp [emitChain]
  | cons q qs => exact emitChainAux_ctr_le q qs out ctr

/-- Inversion for a successful default copy. -/
theorem copyInto_ok {st st' : RSt} {n : Node} {w : List NName}
    (h : copyInto st n w = .ok st') :
    ∃ m, node_copy st.env n = .ok m ∧
      st' = ⟨st.out ++ [m], (n.name, m.name) :: st.env, st.ctr,
             st.warns ++ w⟩ := by
  unfold copyInto at h
  split at h
  · exact absurd h (by simp)
  · rename_i m hm
    exact ⟨m, hm, by cases h; rfl⟩

/-- Inversion for a successful einsum expansion. -/
theorem expandEinsum_ok {st st' : RSt} {n : Node} {shapes : List (List Nat)}
    (h : expandEinsum st n shapes = .ok st') :
    ∃ cs tl spec pargs, n.args = .lit cs :: tl ∧
      contract_path cs shapes = .ok spec ∧
      n.args.mapM (mapArg st.env) = .ok pargs ∧
      st' = ⟨st.out ++ (emitChain (spec.inputs.zip (pargs.drop 1)) spec.out
                          st.ctr).1,
             (n.name, (emitChain (spec.inputs.zip (pargs.drop 1)) spec.out
                          st.ctr).2.1) :: st.env,
             (emitChain (spec.inputs.zip (pargs.drop 1)) spec.out st.ctr).2.2,
             st.warns⟩ := by
  unfold expandEinsum at h
  split at h
  · exact absurd h (by simp)
  · rename_i a0 tl ha
    split at h
    · rename_i cs
      split at h
      · exact absurd h (by simp)
      · rename_i spec hspec
        split at h
        · exact absurd h (by simp)
        · rename_i pargs hpargs
          exact ⟨cs, tl, spec, pargs, ha, hspec, hpargs, by cases h; rfl⟩
    · exact absurd h (by simp)

/-- Structure of a successful rewrite step: the output grows by a batch of
appended nodes, `env` gains exactly the entry for the processsed node, the
counter never decreases, and at most one warning (named after the node) is
appended. -/
theorem stepNode_shape {g : Graph} {st st' : RSt} {n : Node}
    (h : stepNode g st n = .ok st') :
    ∃ Δ nw w, st'.out = st.out ++ Δ ∧ st'.env = (n.name, nw) :: st.env ∧
      st'.warns = st.warns ++ w ∧ st.ctr ≤ st'.ctr ∧
      (w = [] ∨ w = [n.name]) := by
  unfold stepNode at h
  split at h
  · split at h
    · obtain ⟨m, _, hst⟩ := copyInto_ok h
      subst hst
      exact ⟨[m], m.name, [n.name], rfl, rfl, rfl, le_refl _, Or.inr rfl⟩
    · obtain ⟨cs, tl, spec, pargs, _, _, _, hst⟩ := expandEinsum_ok h
      subst hst
      exact ⟨_, _, [], rfl, rfl, by simp, emitChain_ctr_le _ _ _, Or.inl rfl⟩
  · obtain ⟨m, _, hst⟩ := copyInto_ok h
    subst hst
    exact ⟨[m], m.name, [], rfl, rfl, by simp, le_refl _, Or.inl rfl⟩

theorem exceptBind_ok_inv {α β ε : Type} {x : Except ε α} {f : α → Except ε β}
    {b : β} (h : x.bind f = .ok b) : ∃ a, x = .ok a ∧ f a = .ok b := by
  cases x with
  | error e => exact absurd h (by simp [Except.bind])
  | ok a => exact ⟨a, rfl, h⟩

theorem processNodes_cons_ok {g : Graph} {n : Node} {ns : List Node}
    {st st' : RSt} (h : processNodes g (n :: ns) st = .ok st') :
    ∃ st1, stepNode g st n = .ok st1 ∧ processNodes g ns st1 = .ok st' := by
  simp only [processNodes] at h
  exact exceptBind_ok_inv h

/-- Inversion for a successful `node_copy`: same node with remapped arguments
and no shape attribute. -/
theorem node_copy_ok {env : List (NName × NName)} {n m : Node}
    (h : node_copy env n = .ok m) :
    ∃ args kwargs, n.args.mapM (mapArg env) = .ok args ∧
      n.kwargs.mapM (fun p => (mapArg env p.2).map (fun a => (p.1, a)))
        = .ok kwargs ∧
      m = { n with args := args, kwargs := kwargs, shape := none } := by
  unfold node_copy at h
  split at h
  · exact absurd h (by simp)
  · exact absurd h (by simp)
  · rename_i args kwargs hargs hkwargs
    exact ⟨args, kwargs, hargs, hkwargs, by cases h; rfl⟩

theorem processNodes_prefix (g : Graph) :
    ∀ (l : List Node) (st st' : RSt), processNodes g l st = .ok st' →
      st.out <+: st'.out := by
  intro l
  induction l with
  | nil => intro st st' h; cases h; exact List.prefix_refl _
  | cons n ns ih =>
    intro st st' h
    obtain ⟨st1, h1, h2⟩ := processNodes_cons_ok h
    obtain ⟨Δ, nw, w, hout, _, _, _, _⟩ := stepNode_shape h1
    exact List.IsPrefix.trans ⟨Δ, hout.symm⟩ (ih st1 st' h2)

theorem processNodes_warns (g : Graph) :
    ∀ (l : List Node) (st st' : RSt), processNodes g l st = .ok st' →
      ∀ x ∈ st'.warns, x ∈ st.warns ∨ x ∈ l.map Node.name := by
  intro l
  induction l with
  | nil => intro st st' h x hx; cases h; exact Or.inl hx
  | cons n ns ih =>
    intro st st' h x hx
    obtain ⟨st1, h1, h2⟩ := processNodes_cons_ok h
    obtain ⟨Δ, nw, w, _, _, hwarns, _, hw⟩ := stepNode_shape h1
    rcases ih st1 st' h2 x hx with h3 | h3
    · rw [hwarns] at h3
      rcases List.mem_append.mp h3 with h4 | h4
      · exact Or.inl h4
      · rcases hw with rfl | rfl
        · exact absurd h4 (List.not_mem_nil x)
        · simp only [List.mem_singleton] at h4
          exact Or.inr (by simp [h4])
    · exact Or.inr (by simp [h3])

theorem processNodes_sublist (g : Graph) :
    ∀ (l : List Node) (st st' : RSt), processNodes g l st = .ok st' →
      ∃ rest, st'.out = st.out ++ rest ∧
        List.Sublist ((l.filter (fun n => !isEinsumCall n)).map Node.name)
          (rest.map Node.name) := by
  intro l
  induction l with
  | nil => intro st st' h; cases h; exact ⟨[], by simp, by simp⟩
  | cons n ns ih =>
    intro st st' h
    obtain ⟨st1, h1, h2⟩ := processNodes_cons_ok h
    obtain ⟨rest1, hout1, hsub1⟩ := ih st1 st' h2
    by_cases hb : isEinsumCall n = true
    · obtain ⟨Δ, nw, w, hout, _, _, _, _⟩ := stepNode_shape h1
      refine ⟨Δ ++ rest1, by rw [hout1, hout, List.append_assoc], ?_⟩
      simp only [List.filter_cons, hb, Bool.not_true, List.map_append]
      exact hsub1.trans (List.sublist_append_right _ _)
    · have hb' : isEinsumCall n = false := Bool.eq_false_iff.mpr hb
      have h1' : copyInto st n [] = .ok st1 := by
        simpa [stepNode, hb'] using h1
      obtain ⟨m, hm, hst1⟩ := copyInto_ok h1'
      obtain ⟨args, kwargs, _, _, hmeq⟩ := node_copy_ok hm
      refine ⟨m :: rest1, ?_, ?_⟩
      · rw [hout1, hst1]; simp
      · have hname : m.name = n.name := by rw [hmeq]
        simp only [List.filter_cons, hb', Bool.not_false, if_pos trivial,
          List.map_cons, ← hname]
        exact hsub1.cons₂ m.name

/-- Inversion for a successful full rewrite. -/
theorem optimize_ok_inv {g g' : Graph} {w : List NName}
    (h : optimize_einsums_graph g = .ok (g', w)) :
    ∃ stF, processNodes g g initRSt = .ok stF ∧ lint stF.out = true ∧
      g' = stF.out ∧ w = stF.warns := by
  unfold optimize_einsums_graph at h
  split at h
  · exact absurd h (by simp)
  · rename_i stF hstF
    split at h
    · rename_i hlint
      exact ⟨stF, hstF, hlint, by cases h; rfl, by cases h; rfl⟩
    · exact absurd h (by simp)

/-! ## Claim C6: order preservation of non-einsum nodes -/

/-- C6: for every input graph, the relative order of all non-einsum nodes of
the input is preserved in the output graph of the rewrite: the sequence of
their names occurs, in order, as a sublist of the output graph's node
sequence (new nodes produced by einsum expansion may be interleaved, but the
original non-einsum nodes keep their relative order). -/
theorem nonEinsum_order_preserved (g g' : Graph) (w : List NName)
    (hok : optimize_einsums_graph g = .ok (g', w)) :
    List.Sublist ((g.filter (fun n => !isEinsumCall n)).map Node.name)
      (g'.map Node.name) := by
  obtain ⟨stF, hproc, _, hg', _⟩ := optimize_ok_inv hok
  obtain ⟨rest, hout, hsub⟩ := processNodes_sublist g g initRSt stF hproc
  rw [hg', hout]
  simpa [initRSt] using hsub

/-- Concrete instantiation of `nonEinsum_order_preserved` on the traced
`fusable` test graph. -/
def phNode (s : String) (sh : Option (List Nat)) : Node :=
  ⟨.user s, "placeholder", s, [], [], sh⟩

/-- An einsum call-site node, as traced from `torch.einsum(einstr, *ops)`. -/
def einNode (s : String) (str : String) (ops : List String)
    (sh : Option (List Nat)) : Node :=
  ⟨.user s, "call_function", "torch.einsum",
   .lit str.toList :: ops.map (fun o => .node (.user o)), [], sh⟩

/-- The final `output` node of a traced graph. -/
def outNode (s : String) (r : String) : Node :=
  ⟨.user s, "output", "output", [.node (.user r)], [], none⟩

/-- The graph traced from the test function `fusable`:
`z = einsum("ij,jk->ik", x, y); return einsum("ik,ij->i", z, x)`, with the
shape annotations `ShapeProp` computes for inputs of shapes `(2,1)` and
`(1,1)`. -/
def fusableG : Graph :=
  [ phNode "x" (some [2, 1]), phNode "y" (some [1, 1]),
    einNode "z" "ij,jk->ik" ["x", "y"] (some [2, 1]),
    einNode "w" "ik,ij->i" ["z", "x"] (some [2]),
    outNode "output" "w" ]

instance {e a : Type} [DecidableEq e] [DecidableEq a] :
    DecidableEq (Except e a) := fun x y =>
  match x, y with
  | .ok v, .ok w =>
    if h : v = w then isTrue (by rw [h])
    else isFalse (by intro hc; cases hc; exact h rfl)
  | .error v, .error w =>
    if h : v = w then isTrue (by rw [h])
    else isFalse (by intro hc; cases hc; exact h rfl)
  | .ok _, .error _ => isFalse (by intro hc; cases hc)
  | .error _, .ok _ => isFalse (by intro hc; cases hc)

/-- The (graph, warning list) pair the rewrite produces on `fusableG`. -/
def fusableOpt : Graph × List NName :=
  (optimize_einsums_graph fusableG).toOption.getD ([], [])

theorem nonEinsum_order_preserved_witness :
    List.Sublist ((fusableG.filter (fun n => !isEinsumCall n)).map Node.name)
      (fusableOpt.1.map Node.name) :=
  nonEinsum_order_preserved fusableG fusableOpt.1 fusableOpt.2 (by decide)

/-! ## Claim C7: optimizer errors propagate unmodified -/

theorem stepNode_cp_err {g : Graph} {st : RSt} {n : Node} {cs : List Char}
    {tl : List Arg} {shapes : List (List Nat)} {e : RErr}
    (heins : isEinsumCall n = true)
    (hshapes : argShapes g (n.args.drop 1) = some shapes)
    (hargs : n.args = .lit cs :: tl)
    (hcp : contract_path cs shapes = .error e) :
    stepNode g st n = .error e := by
  have hshapes' : argShapes g tl = some shapes := by
    rw [hargs] at hshapes; simpa using hshapes
  simp [stepNode, heins, hargs, hshapes', expandEinsum, hcp]

/-- C7: the rewrite catches no failure other than the missing-shape
condition.  If the path optimizer raises on a recognized einsum call-site
whose operand shapes are all present (malformed index string, incompatible
shapes), then the whole rewrite returns exactly that error: it propagates
unmodified to the caller, processing stops at that call-site, and no
(partial) output graph is returned. -/
theorem optimizer_errors_propagate (g : Graph) (pre post : List Node)
    (n : Node) (st : RSt) (cs : List Char) (tl : List Arg)
    (shapes : List (List Nat)) (e : RErr)
    (hg : g = pre ++ n :: post)
    (hpre : processNodes g pre initRSt = .ok st)
    (heins : isEinsumCall n = true)
    (hargs : n.args = .lit cs :: tl)
    (hshapes : argShapes g (n.args.drop 1) = some shapes)
    (hcp : contract_path cs shapes = .error e) :
    optimize_einsums_graph g = .error e := by
  have hstep : stepNode g st n = .error e :=
    stepNode_cp_err heins hshapes hargs hcp
  have h2 : processNodes g (pre ++ n :: post) initRSt = .error e := by
    rw [processNodes_append, hpre, exceptBind_ok]
    simp only [processNodes, hstep, exceptBind_err]
  have h3 : processNodes g g initRSt = .error e := by
    rw [show processNodes g g initRSt
          = processNodes g (pre ++ n :: post) initRSt from by rw [← hg]]
    exact h2
  unfold optimize_einsums_graph
  rw [h3]

/-- A graph whose einsum has full shape information but a rank-mismatched
index string (`"ij"` against a rank-1 operand): `contract_path` raises. -/
def c7G : Graph :=
  [ phNode "x" (some [1]),
    einNode "e" "ij" ["x"] none,
    outNode "output" "e" ]

/-- The rewrite state after processing the placeholder of `c7G`. -/
def c7St : RSt :=
  ⟨[{ phNode "x" (some [1]) with shape := none }],
   [(.user "x", .user "x")], 0, []⟩

theorem optimizer_errors_propagate_witness :
    optimize_einsums_graph c7G = .error (.valueError "operand rank mismatch") :=
  optimizer_errors_propagate c7G [phNode "x" (some [1])]
    [outNode "output" "e"] (einNode "e" "ij" ["x"] none) c7St
    "ij".toList [.node (.user "x")] [[1]] (.valueError "operand rank mismatch")
    (by decide) (by decide) (by decide) (by decide) (by decide) (by decide)

/-! ## Claim C8: the rewrite is pure and builds the output monotonically -/

/-- C8: the rewrite never mutates the input graph — in this embedding it is a
pure function of the input graph (the input list is never threaded through
any mutable state), and the diagnostic channel is the explicit `warns`
component of the state.  The provable content of "built monotonically by
appending nodes" is: the output graph present after processing any prefix of
the input is a prefix of the final returned graph — nodes are only ever
appended, never removed or modified in place. -/
theorem rewrite_is_append_only (g : Graph) (pre post : List Node) (st : RSt)
    (g' : Graph) (w : List NName)
    (hg : g = pre ++ post)
    (hpre : processNodes g pre initRSt = .ok st)
    (hok : optimize_einsums_graph g = .ok (g', w)) :
    st.out <+: g' := by
  obtain ⟨stF, hproc, _, hg', _⟩ := optimize_ok_inv hok
  have h2 : processNodes g (pre ++ post) initRSt = .ok stF := by
    rw [← hg]; exact hproc
  rw [processNodes_append, hpre, exceptBind_ok] at h2
  rw [hg']
  exact processNodes_prefix g post st stF h2

/-- The rewrite state after processing the first three nodes of `fusableG`. -/
def c8St : RSt :=
  (processNodes fusableG (fusableG.take 3) initRSt).toOption.getD initRSt

theorem rewrite_is_append_only_witness : c8St.out <+: fusableOpt.1 :=
  rewrite_is_append_only fusableG (fusableG.take 3) (fusableG.drop 3) c8St
    fusableOpt.1 fusableOpt.2 (by decide) (by decide) (by decide)

/-! ## Claim C4: no-op on missing shapes -/

theorem findNode_mem {g : Graph} {nm : NName} {m : Node}
    (h : findNode g nm = some m) : m ∈ g :=
  List.mem_of_find?_eq_some h

/-- When no node of the graph carries a shape annotation, reading the shapes
of a nonempty argument list always raises AttributeError. -/
theorem argShapes_none {g : Graph} (hsh : ∀ n ∈ g, n.shape = none)
    {l : List Arg} (hl : l ≠ []) : argShapes g l = none := by
  cases l with
  | nil => exact absurd rfl hl
  | cons a l' =>
    have ha : argShape g a = none := by
      cases a with
      | lit cs => rfl
      | num i => rfl
      | node nm =>
        simp only [argShape]
        cases hf : findNode g nm with
        | none => rfl
        | some m => simp [hsh m (findNode_mem hf)]
    unfold argShapes
    rw [List.mapM_cons, ha]
    rfl

theorem mapM_mapArg_id (env : List (NName × NName)) (args : List Arg)
    (h : ∀ nm, (Arg.node nm) ∈ args → lookupEnv env nm = some nm) :
    args.mapM (mapArg env) = .ok args := by
  induction args with
  | nil => rfl
  | cons a l ih =>
    have ha : mapArg env a = .ok a := by
      cases a with
      | lit cs => rfl
      | num i => rfl
      | node nm =>
        have hl := h nm (by simp)
        simp [mapArg, hl]
    rw [List.mapM_cons, ha]
    rw [ih (fun nm hnm => h nm (List.mem_cons_of_mem a hnm))]
    rfl

theorem mapM_mapKw_id (env : List (NName × NName))
    (kwargs : List (String × Arg))
    (h : ∀ nm p, p ∈ kwargs → p.2 = Arg.node nm → lookupEnv env nm = some nm) :
    kwargs.mapM (fun p => (mapArg env p.2).map (fun a => (p.1, a)))
      = .ok kwargs := by
  induction kwargs with
  | nil => rfl
  | cons p l ih =>
    have ha : mapArg env p.2 = .ok p.2 := by
      cases hp : p.2 with
      | lit cs => rfl
      | num i => rfl
      | node nm =>
        have hl := h nm p (List.mem_cons_self p l) hp
        simp [mapArg, hl, hp]
    rw [List.mapM_cons, ha]
    rw [ih (fun nm q hq => h nm q (List.mem_cons_of_mem p hq))]
    rfl

/-- Copying a node through an identity environment reproduces it exactly,
provided it has no shape annotation. -/
theorem node_copy_id (env : List (NName × NName)) (n : Node)
    (hsh : n.shape = none)
    (h : ∀ nm ∈ nodeRefs n, lookupEnv env nm = some nm) :
    node_copy env n = .ok n := by
  have hargs : n.args.mapM (mapArg env) = .ok n.args := by
    apply mapM_mapArg_id
    intro nm hnm
    apply h
    simp only [nodeRefs, List.filterMap_append, List.mem_append]
    exact Or.inl (List.mem_filterMap.mpr ⟨.node nm, hnm, rfl⟩)
  have hkw : n.kwargs.mapM (fun p => (mapArg env p.2).map (fun a => (p.1, a)))
      = .ok n.kwargs := by
    apply mapM_mapKw_id
    intro nm p hp hpe
    apply h
    simp only [nodeRefs, List.filterMap_append, List.mem_append]
    refine Or.inr (List.mem_filterMap.mpr ⟨.node nm, ?_, rfl⟩)
    exact List.mem_map.mpr ⟨p, hp, hpe⟩
  have hn : { n with args := n.args, kwargs := n.kwargs, shape := none }
      = n := by
    cases n with
    | mk name op target args kwargs shape => simp_all
  unfold node_copy
  rw [hargs, hkw]
  show Except.ok { n with args := n.args, kwargs := n.kwargs, shape := none }
      = Except.ok n
  rw [hn]

theorem lookupEnv_cons_self (env : List (NName × NName)) (k v : NName) :
    lookupEnv ((k, v) :: env) k = some v := by
  simp [lookupEnv]

theorem lookupEnv_cons_ne (env : List (NName × NName)) (k v x : NName)
    (h : x ≠ k) : lookupEnv ((k, v) :: env) x = lookupEnv env x := by
  simp only [lookupEnv]
  rw [List.find?_cons_of_neg _
        (by simp only [beq_iff_eq]; exact fun hc => h hc.symm)]

/-- The identity run: on a graph with no shape annotations in which every
einsum call-site has at least one operand argument, the rewrite copies every
node verbatim and warns once per einsum call-site. -/
theorem processNodes_identity (g : Graph) (hsh : ∀ n ∈ g, n.shape = none) :
    ∀ (l : List Node) (st : RSt) (seen : List NName),
      (∀ n ∈ l, n ∈ g) →
      (∀ n ∈ l, isEinsumCall n = true → 2 ≤ n.args.length) →
      (∀ n ∈ l, n.shape = none) →
      lintAux seen l = true →
      (∀ x, seen.contains x = true → lookupEnv st.env x = some x) →
      ∃ env', processNodes g l st
          = .ok ⟨st.out ++ l, env', st.ctr,
                 st.warns ++ (l.filter (fun n => isEinsumCall n)).map Node.name⟩
        ∧ ∀ x, (x ∈ l.map Node.name ∨ seen.contains x = true) →
            lookupEnv env' x = some x := by
  intro l
  induction l with
  | nil =>
    intro st seen _ _ _ _ henv
    exact ⟨st.env, by simp [processNodes], fun x hx => by
      rcases hx with hx | hx
      · exact absurd hx (by simp)
      · exact henv x hx⟩
  | cons n ns ih =>
    intro st seen hmem hargs2 hshl hlint henv
    have hlint1 : (nodeRefs n).all seen.contains = true :=
      (Bool.and_eq_true _ _ ▸ hlint).1
    have hlint2 : lintAux (n.name :: seen) ns = true :=
      (Bool.and_eq_true _ _ ▸ hlint).2
    have hrefs : ∀ nm ∈ nodeRefs n, lookupEnv st.env nm = some nm := by
      intro nm hnm
      exact henv nm (List.all_eq_true.mp hlint1 nm hnm)
    have hcopy : node_copy st.env n = .ok n :=
      node_copy_id st.env n (hshl n (by simp)) hrefs
    have henv' : ∀ x, (n.name :: seen).contains x = true →
        lookupEnv ((n.name, n.name) :: st.env) x = some x := by
      intro x hx
      rcases (by simpa using hx : x = n.name ∨ seen.contains x = true) with
        rfl | hx'
      · simp [lookupEnv]
      · by_cases hxe : x = n.name
        · subst hxe; simp [lookupEnv]
        · rw [lookupEnv_cons_ne _ _ _ _ hxe]
          exact henv x hx' 
    by_cases hb : isEinsumCall n = true
    · -- einsum call with no readable shapes: warn, then verbatim copy
      have hdrop : n.args.drop 1 ≠ [] := by
        have := hargs2 n (by simp) hb
        intro hc
        have : n.args.length - 1 = 0 := by rw [← List.length_drop, hc]; rfl
        omega
      have hsn : argShapes g (n.args.drop 1) = none := argShapes_none hsh hdrop
      have hsn' : argShapes g n.args.tail = none := by
        rw [← List.drop_one]; exact hsn
      have hstep : stepNode g st n = copyInto st n [n.name] := by
        simp [stepNode, hb, hsn']
      obtain ⟨env', hrun, hlook⟩ :=
        ih ⟨st.out ++ [n], (n.name, n.name) :: st.env, st.ctr,
            st.warns ++ [n.name]⟩ (n.name :: seen)
          (fun m hm => hmem m (by simp [hm]))
          (fun m hm => hargs2 m (by simp [hm]))
          (fun m hm => hshl m (by simp [hm])) hlint2 henv'
      refine ⟨env', ?_, ?_⟩
      · simp only [processNodes, hstep, copyInto, hcopy, exceptBind_ok]
        rw [hrun]
        simp [hb]
      · intro x hx
        apply hlook
        rcases hx with hx | hx
        · rcases (by simpa using hx : x = n.name ∨ x ∈ ns.map Node.name) with
            rfl | hx'
          · exact Or.inr (by simp)
          · exact Or.inl (by simpa using hx')
        · refine Or.inr ?_
          have hx' : x ∈ seen := by simpa using hx
          simp [hx']
    · have hb' : isEinsumCall n = false := Bool.eq_false_iff.mpr hb
      have hstep : stepNode g st n = copyInto st n [] := by
        simp [stepNode, hb']
      obtain ⟨env', hrun, hlook⟩ :=
        ih ⟨st.out ++ [n], (n.name, n.name) :: st.env, st.ctr,
            st.warns ++ []⟩ (n.name :: seen)
          (fun m hm => hmem m (by simp [hm]))
          (fun m hm => hargs2 m (by simp [hm]))
          (fun m hm => hshl m (by simp [hm])) hlint2 henv'
      refine ⟨env', ?_, ?_⟩
      · simp only [processNodes, hstep, copyInto, hcopy, exceptBind_ok]
        rw [hrun]
        simp [hb']
      · intro x hx
        apply hlook
        rcases hx with hx | hx
        · rcases (by simpa using hx : x = n.name ∨ x ∈ ns.map Node.name) with
            rfl | hx'
          · exact Or.inr (by simp)
          · exact Or.inl (by simpa using hx')
        · refine Or.inr ?_
          have hx' : x ∈ seen := by simpa using hx
          simp [hx']

/-- C4 (amended): if no node of G carries a shape annotation, G passes the
structural validator, and every einsum call-site has at least one operand
argument after the index string, then the rewrite returns a graph that is
byte-for-byte identical to G together with exactly one diagnostic per einsum
call-site (the warning list is exactly the list of einsum call-site names, in
order).  The amendment (the operand-count proviso) is forced by the
counterexample `no_shape_claim_counterexample`: an einsum call-site with no
operand arguments never triggers the AttributeError fallback, so the path
optimizer runs and its failure aborts the rewrite. -/
theorem no_shape_info_is_identity (g : Graph)
    (hsh : ∀ n ∈ g, n.shape = none)
    (hargs : ∀ n ∈ g, isEinsumCall n = true → 2 ≤ n.args.length)
    (hlint : lint g = true) :
    optimize_einsums_graph g
      = .ok (g, (g.filter (fun n => isEinsumCall n)).map Node.name) := by
  obtain ⟨env', hrun, _⟩ :=
    processNodes_identity g hsh g initRSt [] (fun n hn => hn) hargs hsh hlint
      (by intro x hx; exact absurd hx (by simp [List.contains]))
  unfold optimize_einsums_graph
  rw [hrun]
  simp only [initRSt, List.nil_append]
  rw [if_pos hlint]

/-- The traced `fusable` graph with no shape propagation run (all shape
attributes absent). -/
def fusableGNoShapes : Graph :=
  [ phNode "x" none, phNode "y" none,
    einNode "z" "ij,jk->ik" ["x", "y"] none,
    einNode "w" "ik,ij->i" ["z", "x"] none,
    outNode "output" "w" ]

theorem no_shape_info_is_identity_witness :
    optimize_einsums_graph fusableGNoShapes
      = .ok (fusableGNoShapes, [.user "z", .user "w"]) := by
  have h := no_shape_info_is_identity fusableGNoShapes (by decide) (by decide)
    (by decide)
  rw [h]
  decide

/-- A graph with no shape annotations anywhere whose single einsum call-site
has no operand arguments after the index string. -/
def c4Cex : Graph :=
  [⟨.user "e", "call_function", "torch.einsum",
    [.lit "ij,jk->ik".toList], [], none⟩]

/-- Is an `Except` a success? -/
def isOkB {e a : Type} : Except e a → Bool
  | .ok _ => true
  | .error _ => false

/-- Counterexample to C4 as stated: `c4Cex` has no shape annotations on any
node, yet the rewrite is not the identity on it — it returns no graph at all
(the path optimizer is invoked on the operand-less einsum and its error
propagates), and no diagnostic is recorded. -/
theorem no_shape_claim_counterexample :
    (c4Cex.all (fun n => n.shape == none)) = true ∧
    isOkB (optimize_einsums_graph c4Cex) = false := by decide

theorem mapM_ok_forall2 {α β : Type} {ε : Type} {f : α → Except ε β} :
    ∀ {l : List α} {res : List β}, l.mapM f = .ok res →
      List.Forall₂ (fun a b => f a = .ok b) l res := by
  intro l
  induction l with
  | nil =>
    intro res h
    cases h
    exact List.Forall₂.nil
  | cons a l ih =>
    intro res h
    rw [List.mapM_cons] at h
    cases hf : f a with
    | error e => rw [hf] at h; exact absurd h (by simp [Except.bind, bind])
    | ok b =>
      rw [hf] at h
      cases hm : l.mapM f with
      | error e =>
        rw [hm] at h
        exact absurd h (by simp [Except.bind, bind, pure, Except.pure])
      | ok bs =>
        rw [hm] at h
        have : res = b :: bs := by
          simpa [Except.bind, bind, pure, Except.pure] using h.symm
        subst this
        exact List.Forall₂.cons hf (ih hm)

theorem forall2_fst_eq {l res : List (String × Arg)}
    (h : List.Forall₂ (fun p q => q.1 = p.1) l res) :
    res.map Prod.fst = l.map Prod.fst := by
  induction h with
  | nil => rfl
  | cons h1 _ ih => simp [ih, h1]

/-! ## Claim C3: one warning and verbatim copy per shape-less einsum -/

theorem processNodes_warns_ext (g : Graph) :
    ∀ (l : List Node) (st st' : RSt), processNodes g l st = .ok st' →
      ∃ added, st'.warns = st.warns ++ added ∧
        ∀ x ∈ added, x ∈ l.map Node.name := by
  intro l
  induction l with
  | nil =>
    intro st st' h; cases h
    exact ⟨[], by simp, by simp⟩
  | cons n ns ih =>
    intro st st' h
    obtain ⟨st1, h1, h2⟩ := processNodes_cons_ok h
    obtain ⟨Δ, nw, wstep, _, _, hwarns, _, hw⟩ := stepNode_shape h1
    obtain ⟨a2, ha2, ha2m⟩ := ih st1 st' h2
    refine ⟨wstep ++ a2, ?_, ?_⟩
    · rw [ha2, hwarns, List.append_assoc]
    · intro x hx
      rcases List.mem_append.mp hx with hx' | hx'
      · rcases hw with rfl | rfl
        · exact absurd hx' (List.not_mem_nil x)
        · simp only [List.mem_singleton] at hx'
          simp [hx']
      · simp [ha2m x hx']

/-- The processed einsum call-site is copied into the output graph by the
very same `node_copy` used for ordinary nodes (same name, op, target; node
arguments remapped through the environment like every other copied node). -/
def copiedUnmodified (env : List (NName × NName)) (n : Node) (g' : Graph) :
    Prop :=
  ∃ m, node_copy env n = .ok m ∧ m ∈ g' ∧ m.name = n.name ∧ m.op = n.op ∧
    m.target = n.target ∧ m.args.length = n.args.length ∧
    m.kwargs.map Prod.fst = n.kwargs.map Prod.fst

/-- C3: for every recognized einsum call-site at which reading the operand
shapes raises (at least one operand argument after the index string lacks a
shape annotation), the rewrite records exactly one warning for that
call-site, and the node is copied into the output graph as an ordinary node:
through the same `node_copy` path as every non-einsum node, preserving its
name, op, target, argument count and keyword names. -/
theorem missing_shape_warns_and_copies (g : Graph) (pre post : List Node)
    (n : Node) (st : RSt) (g' : Graph) (w : List NName)
    (hnodup : (g.map Node.name).Nodup)
    (hg : g = pre ++ n :: post)
    (hpre : processNodes g pre initRSt = .ok st)
    (heins : isEinsumCall n = true)
    (hshapes : argShapes g (n.args.drop 1) = none)
    (hok : optimize_einsums_graph g = .ok (g', w)) :
    w.count n.name = 1 ∧ copiedUnmodified st.env n g' := by
  obtain ⟨stF, hproc, _, hg', hw'⟩ := optimize_ok_inv hok
  have hproc2 : processNodes g (pre ++ n :: post) initRSt = .ok stF := by
    rw [← hg]; exact hproc
  rw [processNodes_append, hpre, exceptBind_ok] at hproc2
  obtain ⟨st1, hstep, hpost⟩ := processNodes_cons_ok hproc2
  have hshapes' : argShapes g n.args.tail = none := by
    rw [← List.drop_one]; exact hshapes
  have hstep' : copyInto st n [n.name] = .ok st1 := by
    rw [← hstep]; simp [stepNode, heins, hshapes']
  obtain ⟨m, hm, hst1⟩ := copyInto_ok hstep'
  obtain ⟨margs, mkwargs, _, hmkw, hmeq⟩ := node_copy_ok hm
  -- the copy is in the final graph
  have hmem : m ∈ g' := by
    have hpref := processNodes_prefix g post st1 stF hpost
    obtain ⟨tl, htl⟩ := hpref
    rw [hg', ← htl, hst1]
    simp
  -- warning bookkeeping
  obtain ⟨a1, ha1, ha1m⟩ := processNodes_warns_ext g pre initRSt st hpre
  obtain ⟨a2, ha2, ha2m⟩ := processNodes_warns_ext g post st1 stF hpost
  have hnames := hnodup
  rw [hg, List.map_append, List.map_cons] at hnames
  rw [List.nodup_append] at hnames
  obtain ⟨_, hnd2, hdisj⟩ := hnames
  have hn1 : n.name ∉ pre.map Node.name := fun hc => hdisj hc (by simp)
  have hn2 : n.name ∉ post.map Node.name := (List.nodup_cons.mp hnd2).1
  constructor
  · rw [hw', ha2, hst1]
    simp only [ha1, initRSt, List.nil_append, List.count_append]
    have hc1 : a1.count n.name = 0 :=
      List.count_eq_zero.mpr (fun hc => hn1 (ha1m _ hc))
    have hc2 : a2.count n.name = 0 :=
      List.count_eq_zero.mpr (fun hc => hn2 (ha2m _ hc))
    simp [hc1, hc2]
  · obtain ⟨_, hkw, hmargs⟩ := node_copy_ok hm
    obtain ⟨margs2, mkwargs2, hma, hmk, hmeq2⟩ := node_copy_ok hm
    have hlen : margs2.length = n.args.length :=
      (mapM_ok_forall2 hma).length_eq.symm
    have hfst : mkwargs2.map Prod.fst = n.kwargs.map Prod.fst := by
      apply forall2_fst_eq
      refine (mapM_ok_forall2 hmk).imp ?_
      intro p q hpq
      cases hmq : mapArg st.env p.2 with
      | error e => rw [hmq] at hpq; exact absurd hpq (by simp [Except.map])
      | ok a =>
        rw [hmq] at hpq
        simp only [Except.map] at hpq
        cases hpq
        rfl
    refine ⟨m, hm, hmem, ?_, ?_, ?_, ?_, ?_⟩
    · rw [hmeq2]
    · rw [hmeq2]
    · rw [hmeq2]
    · rw [hmeq2]; exact hlen
    · rw [hmeq2]; exact hfst

/-- A one-einsum graph with no shape propagation: the einsum's operand lacks
a shape annotation. -/
def c3G : Graph :=
  [ phNode "x" none,
    einNode "e" "i" ["x"] none,
    outNode "output" "e" ]

/-- The rewrite state after processing the placeholder of `c3G`. -/
def c3St : RSt :=
  ⟨[phNode "x" none], [(.user "x", .user "x")], 0, []⟩

theorem missing_shape_warns_and_copies_witness :
    ([NName.user "e"] : List NName).count (NName.user "e") = 1 ∧
    copiedUnmodified c3St.env (einNode "e" "i" ["x"] none) c3G :=
  missing_shape_warns_and_copies c3G [phNode "x" none]
    [outNode "output" "e"] (einNode "e" "i" ["x"] none) c3St c3G
    [NName.user "e"] (by decide) (by decide) (by decide) (by decide)
    (by decide) (by decide)

/-! ## Structural facts about the emitted contraction chain -/

theorem emitChainAux_names (q : List Char × Arg) :
    ∀ (qs : List (List Char × Arg)) (out : List Char) (ctr : Nat),
      ∀ m ∈ (emitChainAux q qs out ctr).1,
        (∃ k, m.name = .gen k ∧ ctr ≤ k ∧
          k < (emitChainAux q qs out ctr).2.2) ∧ m.kwargs = [] := by
  intro qs
  induction qs generalizing q with
  | nil =>
    intro out ctr m hm
    simp only [emitChainAux, List.mem_singleton] at hm
    subst hm
    exact ⟨⟨ctr, rfl, le_refl _, by simp [emitChainAux]⟩, rfl⟩
  | cons p ps ih =>
    intro out ctr m hm
    cases ps with
    | nil =>
      obtain ⟨s2, a2⟩ := p
      simp only [emitChainAux, List.mem_singleton] at hm
      subst hm
      exact ⟨⟨ctr, rfl, le_refl _, by simp [emitChainAux]⟩, rfl⟩
    | cons p2 ps2 =>
      obtain ⟨s2, a2⟩ := p
      simp only [emitChainAux, List.mem_cons] at hm
      rcases hm with rfl | hm
      · refine ⟨⟨ctr, rfl, le_refl _, ?_⟩, rfl⟩
        have h1 := emitChainAux_ctr_le
          (stepKeep q.1 s2 ((p2 :: ps2).map Prod.fst) out,
           Arg.node (.gen ctr)) (p2 :: ps2) out (ctr + 1)
        calc ctr < ctr + 1 := Nat.lt_succ_self ctr
          _ ≤ _ := h1
        -- goal: ctr < (emitChainAux q ((s2,a2)::p2::ps2) out ctr).2.2
      · obtain ⟨⟨k, hk, hk1, hk2⟩, hkw⟩ := ih _ _ _ m hm
        exact ⟨⟨k, hk, le_trans (Nat.le_succ _) hk1, hk2⟩, hkw⟩

theorem emitChainAux_final_mem (q : List Char × Arg) :
    ∀ (qs : List (List Char × Arg)) (out : List Char) (ctr : Nat),
      (emitChainAux q qs out ctr).2.1
        ∈ (emitChainAux q qs out ctr).1.map Node.name := by
  intro qs
  induction qs generalizing q with
  | nil => intro out ctr; simp [emitChainAux, mkChainNode]
  | cons p ps ih =>
    intro out ctr
    cases ps with
    | nil =>
      obtain ⟨s2, a2⟩ := p
      simp [emitChainAux, mkChainNode]
    | cons p2 ps2 =>
      obtain ⟨s2, a2⟩ := p
      simp only [emitChainAux, List.map_cons, List.mem_cons]
      exact Or.inr (ih _ _ _)

/-! ## Claim C10: keyword arguments of optimized einsum nodes are discarded -/

/-- Origin of every node in the rewritten graph: already present, generated
by an einsum expansion (fresh name, no keyword arguments), or a copy of an
input node that was not einsum-optimized. -/
theorem processNodes_out_origin (g : Graph) :
    ∀ (l : List Node) (st st' : RSt), processNodes g l st = .ok st' →
      ∀ m ∈ st'.out, m ∈ st.out ∨
        ((∃ k, m.name = .gen k) ∧ m.kwargs = []) ∨
        (∃ p ∈ l, m.name = p.name ∧
          (isEinsumCall p = false ∨ argShapes g (p.args.drop 1) = none)) := by
  intro l
  induction l with
  | nil =>
    intro st st' h m hm
    cases h
    exact Or.inl hm
  | cons n ns ih =>
    intro st st' h m hm
    obtain ⟨st1, h1, h2⟩ := processNodes_cons_ok h
    rcases ih st1 st' h2 m hm with hin | hgen | ⟨p, hp, hpn, hpc⟩
    · -- m was present after the step on n
      unfold stepNode at h1
      split at h1
      · rename_i heins
        split at h1
        · rename_i hsn
          obtain ⟨mm, hmm, hst1⟩ := copyInto_ok h1
          rw [hst1] at hin
          rcases List.mem_append.mp hin with hin' | hin'
          · exact Or.inl hin'
          · obtain ⟨_, _, _, _, hmeq⟩ := node_copy_ok hmm
            simp only [List.mem_singleton] at hin'
            subst hin'
            exact Or.inr (Or.inr ⟨n, by simp, by rw [hmeq], Or.inr hsn⟩)
        · rename_i shapes hsn
          obtain ⟨cs, tl, spec, pargs, hargs, hcp, hpargs, hst1⟩ :=
            expandEinsum_ok h1
          rw [hst1] at hin
          rcases List.mem_append.mp hin with hin' | hin'
          · exact Or.inl hin'
          · cases hops : spec.inputs.zip (pargs.drop 1) with
            | nil => rw [hops] at hin'; exact absurd hin' (by simp [emitChain])
            | cons q qs =>
              rw [hops] at hin'
              obtain ⟨⟨k, hk, _, _⟩, hkw⟩ :=
                emitChainAux_names q qs spec.out st.ctr m
                  (by simpa [emitChain] using hin')
              exact Or.inr (Or.inl ⟨⟨k, hk⟩, hkw⟩)
      · rename_i hne
        obtain ⟨mm, hmm, hst1⟩ := copyInto_ok h1
        rw [hst1] at hin
        rcases List.mem_append.mp hin with hin' | hin'
        · exact Or.inl hin'
        · obtain ⟨_, _, _, _, hmeq⟩ := node_copy_ok hmm
          simp only [List.mem_singleton] at hin'
          subst hin'
          refine Or.inr (Or.inr ⟨n, by simp, by rw [hmeq], Or.inl ?_⟩)
          exact Bool.eq_false_iff.mpr hne
    · exact Or.inr (Or.inl hgen)
    · exact Or.inr (Or.inr ⟨p, by simp [hp], hpn, hpc⟩)

theorem name_inj {g : Graph} (hnodup : (g.map Node.name).Nodup) {p q : Node}
    (hp : p ∈ g) (hq : q ∈ g) (h : p.name = q.name) : p = q :=
  List.inj_on_of_nodup_map hnodup hp hq h

/-- Does the node bear a user (traced-program) name? -/
def userNamed (n : Node) : Bool :=
  match n.name with
  | .user _ => true
  | .gen _ => false

theorem userNamed_elim {n : Node} (h : userNamed n = true) :
    ∃ s, n.name = .user s := by
  unfold userNamed at h
  cases hn : n.name with
  | user s => exact ⟨s, rfl⟩
  | gen k => rw [hn] at h; exact absurd h (by simp)

/-- C10: for every recognized einsum call-site whose operand shapes are all
present, the replacement subgraph is built solely from the node's positional
arguments: the optimized einsum node itself never appears in the output graph
(no output node bears its name), and every node generated by the expansion
carries no keyword arguments whatsoever. -/
theorem einsum_kwargs_discarded (g : Graph) (n : Node) (g' : Graph)
    (w : List NName) (shs : List (List Nat))
    (hnodup : (g.map Node.name).Nodup)
    (huser : g.all userNamed = true)
    (hn : n ∈ g)
    (heins : isEinsumCall n = true)
    (hsh : argShapes g (n.args.drop 1) = some shs)
    (hok : optimize_einsums_graph g = .ok (g', w)) :
    (∀ m ∈ g', m.name ≠ n.name) ∧
    (∀ m ∈ g', (∃ k, m.name = .gen k) → m.kwargs = []) := by
  obtain ⟨stF, hproc, _, hg', _⟩ := optimize_ok_inv hok
  have horigin := processNodes_out_origin g g initRSt stF hproc
  constructor
  · intro m hm hc
    rcases horigin m (hg' ▸ hm) with hin | ⟨⟨k, hk⟩, _⟩ | ⟨p, hp, hpn, hpc⟩
    · exact absurd hin (by simp [initRSt])
    · obtain ⟨s, hs⟩ := userNamed_elim (List.all_eq_true.mp huser n hn)
      rw [hc, hs] at hk
      exact absurd hk (by simp)
    · have : p = n := name_inj hnodup hp hn (by rw [← hpn, ← hc])
      subst this
      rcases hpc with hpc | hpc
      · rw [heins] at hpc; exact absurd hpc (by simp)
      · rw [hsh] at hpc; exact absurd hpc (by simp)
  · intro m hm ⟨k, hk⟩
    rcases horigin m (hg' ▸ hm) with hin | ⟨_, hkw⟩ | ⟨p, hp, hpn, _⟩
    · exact absurd hin (by simp [initRSt])
    · exact hkw
    · obtain ⟨s, hs⟩ := userNamed_elim (List.all_eq_true.mp huser p hp)
      rw [hk, hs] at hpn
      exact absurd hpn (by simp)

/-- The `fusableG` graph with a keyword argument attached to its first einsum
call-site. -/
def fusableGKw : Graph :=
  [ phNode "x" (some [2, 1]), phNode "y" (some [1, 1]),
    { einNode "z" "ij,jk->ik" ["x", "y"] (some [2, 1]) with
      kwargs := [("out", Arg.num 0)] },
    einNode "w" "ik,ij->i" ["z", "x"] (some [2]),
    outNode "output" "w" ]

/-- The rewrite result on `fusableGKw`. -/
def fusableKwOpt : Graph × List NName :=
  (optimize_einsums_graph fusableGKw).toOption.getD ([], [])

theorem einsum_kwargs_discarded_witness :
    (∀ m ∈ fusableKwOpt.1, m.name ≠
      ({ einNode "z" "ij,jk->ik" ["x", "y"] (some [2, 1]) with
         kwargs := [("out", Arg.num 0)] } : Node).name) ∧
    (∀ m ∈ fusableKwOpt.1, (∃ k, m.name = .gen k) → m.kwargs = []) :=
  einsum_kwargs_discarded fusableGKw
    ({ einNode "z" "ij,jk->ik" ["x", "y"] (some [2, 1]) with
       kwargs := [("out", Arg.num 0)] }) fusableKwOpt.1 fusableKwOpt.2
    [[2, 1], [1, 1]] (by decide) (by decide) (by decide) (by decide)
    (by decide) (by decide)

/-! ## Claim C9: environment-mapping invariant and final validation -/

theorem contains_iff {α : Type} [BEq α] [LawfulBEq α] (l : List α) (x : α) :
    l.contains x = true ↔ x ∈ l :=
  ⟨List.mem_of_elem_eq_true, List.elem_eq_true_of_mem⟩

theorem lintAux_mono {seen1 seen2 : List NName}
    (hs : ∀ x, seen1.contains x = true → seen2.contains x = true) :
    ∀ {l : List Node}, lintAux seen1 l = true → lintAux seen2 l = true := by
  intro l
  induction l generalizing seen1 seen2 with
  | nil => intro h; rfl
  | cons n ns ih =>
    intro h
    obtain ⟨h1, h2⟩ := Bool.and_eq_true _ _ ▸ h
    refine Bool.and_eq_true _ _ ▸ ⟨?_, ?_⟩
    · exact List.all_eq_true.mpr
        (fun x hx => hs x (List.all_eq_true.mp h1 x hx))
    · refine ih (fun x hx => ?_) h2
      rcases (by simpa using hx : x = n.name ∨ seen1.contains x = true) with
        rfl | hx'
      · simp
      · have := hs x hx'
        simpa using Or.inr (by simpa using this)

theorem lintAux_append {seen : List NName} :
    ∀ {l1 l2 : List Node},
      lintAux seen l1 = true →
      lintAux (l1.map Node.name ++ seen) l2 = true →
      lintAux seen (l1 ++ l2) = true := by
  intro l1
  induction l1 generalizing seen with
  | nil =>
    intro l2 _ h2
    simpa using h2
  | cons n ns ih =>
    intro l2 h1 h2
    obtain ⟨h11, h12⟩ := Bool.and_eq_true _ _ ▸ h1
    simp only [List.cons_append, lintAux]
    refine Bool.and_eq_true _ _ ▸ ⟨h11, ?_⟩
    refine ih h12 (lintAux_mono (fun x hx => ?_) h2)
    rw [contains_iff] at hx ⊢
    simp only [List.mem_append, List.map_cons, List.mem_cons] at hx ⊢
    tauto

/-- Total success of argument remapping when every referenced name has an
environment entry. -/
theorem mapM_mapArg_total (env : List (NName × NName)) (args : List Arg)
    (h : ∀ nm, Arg.node nm ∈ args → (lookupEnv env nm).isSome = true) :
    ∃ res, args.mapM (mapArg env) = .ok res := by
  induction args with
  | nil => exact ⟨[], rfl⟩
  | cons a l ih =>
    obtain ⟨res, hres⟩ := ih (fun nm hnm => h nm (List.mem_cons_of_mem a hnm))
    have ha : ∃ b, mapArg env a = .ok b := by
      cases a with
      | lit cs => exact ⟨.lit cs, rfl⟩
      | num i => exact ⟨.num i, rfl⟩
      | node nm =>
        have := h nm (by simp)
        cases hl : lookupEnv env nm with
        | none => rw [hl] at this; exact absurd this (by simp)
        | some y => exact ⟨.node y, by simp [mapArg, hl]⟩
    obtain ⟨b, hb⟩ := ha
    exact ⟨b :: res, by rw [List.mapM_cons, hb, hres]; rfl⟩

theorem mapM_mapKw_total (env : List (NName × NName))
    (kwargs : List (String × Arg))
    (h : ∀ nm p, p ∈ kwargs → p.2 = Arg.node nm →
      (lookupEnv env nm).isSome = true) :
    ∃ res, kwargs.mapM (fun p => (mapArg env p.2).map (fun a => (p.1, a)))
      = .ok res := by
  induction kwargs with
  | nil => exact ⟨[], rfl⟩
  | cons p l ih =>
    obtain ⟨res, hres⟩ :=
      ih (fun nm q hq hq2 => h nm q (List.mem_cons_of_mem p hq) hq2)
    have ha : ∃ b, mapArg env p.2 = .ok b := by
      cases hp : p.2 with
      | lit cs => exact ⟨.lit cs, rfl⟩
      | num i => exact ⟨.num i, rfl⟩
      | node nm =>
        have := h nm p (by simp) hp
        cases hl : lookupEnv env nm with
        | none => rw [hl] at this; exact absurd this (by simp)
        | some y => exact ⟨.node y, by simp [mapArg, hl]⟩
    obtain ⟨b, hb⟩ := ha
    exact ⟨(p.1, b) :: res, by
      rw [List.mapM_cons, hb, hres]; rfl⟩

theorem forall2_mem_right {α β : Type} {R : α → β → Prop} :
    ∀ {l : List α} {res : List β}, List.Forall₂ R l res →
      ∀ b ∈ res, ∃ a ∈ l, R a b := by
  intro l res h
  induction h with
  | nil => intro b hb; exact absurd hb (List.not_mem_nil b)
  | cons h1 _ ih =>
    intro b hb
    rcases List.mem_cons.mp hb with rfl | hb'
    · exact ⟨_, by simp, h1⟩
    · obtain ⟨a, ha, hr⟩ := ih b hb'
      exact ⟨a, by simp [ha], hr⟩

theorem mapArg_node_inv {env : List (NName × NName)} {a : Arg} {y : NName}
    (h : mapArg env a = .ok (.node y)) :
    ∃ x, a = .node x ∧ lookupEnv env x = some y := by
  cases a with
  | lit cs => exact absurd h (by simp [mapArg])
  | num i => exact absurd h (by simp [mapArg])
  | node x =>
    refine ⟨x, rfl, ?_⟩
    cases hl : lookupEnv env x with
    | none => rw [mapArg, hl] at h; exact absurd h (by simp)
    | some y' =>
      rw [mapArg, hl] at h
      simp only [Except.ok.injEq, Arg.node.injEq] at h
      rw [h]

/-- Every reference of a copied node is in the range of the environment. -/
theorem node_copy_refs {env : List (NName × NName)} {n m : Node}
    (h : node_copy env n = .ok m) :
    ∀ y ∈ nodeRefs m, ∃ x, lookupEnv env x = some y := by
  obtain ⟨margs, mkwargs, hma, hmk, hmeq⟩ := node_copy_ok h
  intro y hy
  rw [hmeq] at hy
  simp only [nodeRefs, List.filterMap_append, List.mem_append] at hy
  rcases hy with hy | hy
  · obtain ⟨a, ha, ha2⟩ := List.mem_filterMap.mp hy
    have haeq : a = Arg.node y := by
      cases a <;> simp_all
    subst haeq
    obtain ⟨a0, _, hr⟩ := forall2_mem_right (mapM_ok_forall2 hma) _ ha
    obtain ⟨x, _, hx⟩ := mapArg_node_inv hr
    exact ⟨x, hx⟩
  · obtain ⟨a, ha, ha2⟩ := List.mem_filterMap.mp hy
    have haeq : a = Arg.node y := by
      cases a <;> simp_all
    subst haeq
    obtain ⟨q, hq, hq2⟩ := List.mem_map.mp ha
    obtain ⟨p, _, hr⟩ := forall2_mem_right (mapM_ok_forall2 hmk) _ hq
    have hr2 : mapArg env p.2 = .ok (.node y) := by
      cases hmp : mapArg env p.2 with
      | error e => rw [hmp] at hr; exact absurd hr (by simp [Except.map])
      | ok b =>
        rw [hmp] at hr
        simp only [Except.map, Except.ok.injEq] at hr
        rw [← hr] at hq2
        simp only at hq2
        rw [hq2]
      -- q = (p.1, b), q.2 = b = .node y
    obtain ⟨x, _, hx⟩ := mapArg_node_inv hr2
    exact ⟨x, hx⟩

theorem refMatch_inv {a : Arg} {x : NName}
    (h : (match a with | Arg.node nm => some nm | _ => none) = some x) :
    a = Arg.node x := by
  cases a <;> simp_all

theorem emitChainAux_lint (out : List Char) :
    ∀ (qs : List (List Char × Arg)) (q : List Char × Arg) (ctr : Nat)
      (seen : List NName),
      (∀ nm, q.2 = Arg.node nm → seen.contains nm = true) →
      (∀ p ∈ qs, ∀ nm, p.2 = Arg.node nm → seen.contains nm = true) →
      lintAux seen (emitChainAux q qs out ctr).1 = true := by
  intro qs
  induction qs with
  | nil =>
    intro q ctr seen hq _
    simp only [emitChainAux, lintAux, Bool.and_true]
    refine List.all_eq_true.mpr (fun x hx => ?_)
    simp only [mkChainNode, nodeRefs, List.map_nil, List.append_nil,
      List.mem_filterMap] at hx
    obtain ⟨a, ha, ha2⟩ := hx
    have ha3 := refMatch_inv ha2
    subst ha3
    simp only [List.mem_cons, List.not_mem_nil, or_false] at ha
    rcases ha with ha | ha
    · exact absurd ha (by simp)
    · exact hq x ha.symm
  | cons p ps ih =>
    intro q ctr seen hq hps
    cases ps with
    | nil =>
      obtain ⟨s2, a2⟩ := p
      simp only [emitChainAux, lintAux, Bool.and_true]
      refine List.all_eq_true.mpr (fun x hx => ?_)
      simp only [mkChainNode, nodeRefs, List.map_nil, List.append_nil,
        List.mem_filterMap] at hx
      obtain ⟨a, ha, ha2⟩ := hx
      have ha3 := refMatch_inv ha2
      subst ha3
      simp only [List.mem_cons, List.not_mem_nil, or_false] at ha
      rcases ha with ha | ha | ha
      · exact absurd ha (by simp)
      · exact hq x ha.symm
      · exact hps (s2, a2) (by simp) x (by simp [ha.symm])
    | cons p2 ps2 =>
      obtain ⟨s2, a2⟩ := p
      simp only [emitChainAux, lintAux]
      refine Bool.and_eq_true _ _ ▸ ⟨?_, ?_⟩
      · refine List.all_eq_true.mpr (fun x hx => ?_)
        simp only [mkChainNode, nodeRefs, List.map_nil, List.append_nil,
          List.mem_filterMap] at hx
        obtain ⟨a, ha, ha2⟩ := hx
        have ha3 := refMatch_inv ha2
        subst ha3
        simp only [List.mem_cons, List.not_mem_nil, or_false] at ha
        rcases ha with ha | ha | ha
        · exact absurd ha (by simp)
        · exact hq x ha.symm
        · exact hps (s2, a2) (by simp) x (by simp [ha.symm])
      · refine ih _ (ctr + 1) (NName.gen ctr :: seen) ?_ ?_
        · intro nm hnm
          simp only [Arg.node.injEq] at hnm
          simp [← hnm]
        · intro pp hpp nm hnm
          have := hps pp (by simp [hpp]) nm hnm
          rw [contains_iff] at this ⊢
          simp [this]

theorem splitOnComma_ne_nil (cs : List Char) : splitOnComma cs ≠ [] := by
  cases cs with
  | nil => simp [splitOnComma]
  | cons c cs' =>
    simp only [splitOnComma]
    split
    · simp
    · split <;> simp

theorem parseEinstr_inputs_ne_nil {cs : List Char} {spec : EinSpec}
    (h : parseEinstr cs = some spec) : spec.inputs ≠ [] := by
  unfold parseEinstr at h
  split at h
  · rename_i lhs rhs _
    split at h
    · exact absurd h (by simp)
    · cases h
      exact splitOnComma_ne_nil lhs
  · cases h
    exact splitOnComma_ne_nil cs

/-- Full inversion of a successful `contract_path` validation. -/
theorem contract_path_ok_inv {cs : List Char} {shapes : List (List Nat)}
    {spec : EinSpec} (h : contract_path cs shapes = .ok spec) :
    parseEinstr cs = some spec ∧
    spec.inputs.all (fun s => s.all Char.isAlpha) = true ∧
    spec.out.all Char.isAlpha = true ∧
    spec.inputs.length = shapes.length ∧
    ((spec.inputs.zip shapes).all fun p => p.1.length == p.2.length) = true ∧
    checkSizes (spec.inputs.zip shapes) = true ∧
    spec.out.Nodup := by
  unfold contract_path at h
  split at h
  · exact absurd h (by simp)
  · rename_i spec0 hparse
    split at h
    · exact absurd h (by simp)
    · rename_i halpha
      split at h
      · exact absurd h (by simp)
      · rename_i hcount
        split at h
        · exact absurd h (by simp)
        · rename_i hrank
          split at h
          · exact absurd h (by simp)
          · rename_i hsizes
            split at h
            · exact absurd h (by simp)
            · rename_i houtin
              split at h
              · exact absurd h (by simp)
              · rename_i houtnd
                cases h
                simp only [Bool.not_eq_true',
                  Bool.not_eq_false] at halpha hrank hsizes houtnd
                obtain ⟨ha1, ha2⟩ := Bool.and_eq_true _ _ ▸ halpha
                refine ⟨hparse, ha1, ha2, by omega, hrank, hsizes, ?_⟩
                simpa using houtnd

theorem mapM_option_length {α β : Type} {f : α → Option β} :
    ∀ {l : List α} {res : List β}, l.mapM f = some res →
      res.length = l.length := by
  intro l
  induction l with
  | nil => intro res h; cases h; rfl
  | cons a l ih =>
    intro res h
    rw [List.mapM_cons] at h
    cases hf : f a with
    | none => rw [hf] at h; exact absurd h (by simp [Option.bind, bind])
    | some b =>
      rw [hf] at h
      cases hm : l.mapM f with
      | none =>
        rw [hm] at h
        exact absurd h (by simp [Option.bind, bind, pure])
      | some bs =>
        rw [hm] at h
        have : res = b :: bs := by
          simpa [Option.bind, bind, pure] using h.symm
        subst this
        simp [ih hm]

theorem nodeRefs_args {n : Node} {nm : NName} (h : Arg.node nm ∈ n.args) :
    nm ∈ nodeRefs n := by
  simp only [nodeRefs, List.filterMap_append, List.mem_append]
  exact Or.inl (List.mem_filterMap.mpr ⟨.node nm, h, rfl⟩)

theorem nodeRefs_kwargs {n : Node} {p : String × Arg} (hp : p ∈ n.kwargs)
    {nm : NName} (h : p.2 = Arg.node nm) : nm ∈ nodeRefs n := by
  simp only [nodeRefs, List.filterMap_append, List.mem_append]
  exact Or.inr (List.mem_filterMap.mpr
    ⟨.node nm, List.mem_map.mpr ⟨p, hp, h⟩, rfl⟩)

theorem lint_extend {out Δ : List Node} (h1 : lint out = true)
    (h2 : lintAux (out.map Node.name) Δ = true) : lint (out ++ Δ) = true := by
  unfold lint at h1 ⊢
  refine lintAux_append h1 (lintAux_mono (fun x hx => ?_) h2)
  rw [contains_iff] at hx ⊢
  simpa using hx

/-- A successful copy step preserves the referential invariants. -/
theorem copy_preserves (st : RSt) (n : Node) (seen : List NName)
    (w : List NName)
    (h11 : (nodeRefs n).all seen.contains = true)
    (hdom : ∀ x, seen.contains x = true →
      (lookupEnv st.env x).isSome = true)
    (hran : ∀ x y, lookupEnv st.env x = some y → y ∈ st.out.map Node.name)
    (hlint : lint st.out = true) :
    ∃ m st1, copyInto st n w = .ok st1 ∧
      st1.out = st.out ++ [m] ∧ st1.env = (n.name, m.name) :: st.env ∧
      lint st1.out = true ∧
      (∀ x, (n.name :: seen).contains x = true →
        (lookupEnv st1.env x).isSome = true) ∧
      (∀ x y, lookupEnv st1.env x = some y → y ∈ st1.out.map Node.name) := by
  have hdomargs : ∀ nm, Arg.node nm ∈ n.args →
      (lookupEnv st.env nm).isSome = true := fun nm hnm =>
    hdom nm (List.all_eq_true.mp h11 nm (nodeRefs_args hnm))
  have hdomkw : ∀ nm p, p ∈ n.kwargs → p.2 = Arg.node nm →
      (lookupEnv st.env nm).isSome = true := fun nm p hp hpe =>
    hdom nm (List.all_eq_true.mp h11 nm (nodeRefs_kwargs hp hpe))
  obtain ⟨margs, hmargs⟩ := mapM_mapArg_total st.env n.args hdomargs
  obtain ⟨mkw, hmkw⟩ := mapM_mapKw_total st.env n.kwargs hdomkw
  have hcopy : node_copy st.env n
      = .ok { n with args := margs, kwargs := mkw, shape := none } := by
    unfold node_copy
    rw [hmargs, hmkw]
  set m : Node := { n with args := margs, kwargs := mkw, shape := none }
    with hm
  have hlint1 : lint (st.out ++ [m]) = true := by
    refine lint_extend hlint ?_
    simp only [lintAux, Bool.and_true]
    refine List.all_eq_true.mpr (fun y hy => ?_)
    obtain ⟨x, hx⟩ := node_copy_refs hcopy y hy
    rw [contains_iff]
    exact hran x y hx
  refine ⟨m, ⟨st.out ++ [m], (n.name, m.name) :: st.env, st.ctr,
    st.warns ++ w⟩, by simp [copyInto, hcopy], rfl, rfl, hlint1, ?_, ?_⟩
  · intro x hx
    rcases (by simpa using (contains_iff _ _).mp hx :
        x = n.name ∨ x ∈ seen) with rfl | hx'
    · simp [lookupEnv_cons_self]
    · by_cases hxe : x = n.name
      · subst hxe; simp [lookupEnv_cons_self]
      · rw [lookupEnv_cons_ne _ _ _ _ hxe]
        exact hdom x ((contains_iff _ _).mpr hx')
  · intro x y hx
    by_cases hxe : x = n.name
    · subst hxe
      rw [lookupEnv_cons_self] at hx
      cases hx
      simp
    · rw [lookupEnv_cons_ne _ _ _ _ hxe] at hx
      have := hran x y hx
      simp only [List.map_append, List.mem_append]
      exact Or.inl this

/-- The error kinds that legitimately escape a rewrite step: anything except
an environment KeyError (which would signal a broken traversal invariant) and
the lint failure. -/
def benignErr (e : RErr) : Prop :=
  (∃ nm, e = .indexError nm) ∨ (∃ s, e = .typeError s) ∨
  (∃ s, e = .valueError s)

theorem contract_path_err {cs : List Char} {shapes : List (List Nat)}
    {e : RErr} (h : contract_path cs shapes = .error e) :
    ∃ s, e = .valueError s := by
  unfold contract_path at h
  split at h
  · cases h; exact ⟨_, rfl⟩
  · split at h
    · cases h; exact ⟨_, rfl⟩
    · split at h
      · cases h; exact ⟨_, rfl⟩
      · split at h
        · cases h; exact ⟨_, rfl⟩
        · split at h
          · cases h; exact ⟨_, rfl⟩
          · split at h
            · cases h; exact ⟨_, rfl⟩
            · split at h
              · cases h; exact ⟨_, rfl⟩
              · exact absurd h (by simp)

/-- A successful einsum expansion step preserves the referential
invariants; a failing one raises only optimizer-style errors. -/
theorem expand_preserves (g : Graph) (st : RSt) (n : Node)
    (seen : List NName) (shapes : List (List Nat))
    (h11 : (nodeRefs n).all seen.contains = true)
    (hdom : ∀ x, seen.contains x = true →
      (lookupEnv st.env x).isSome = true)
    (hran : ∀ x y, lookupEnv st.env x = some y → y ∈ st.out.map Node.name)
    (hlint : lint st.out = true)
    (hsn : argShapes g (n.args.drop 1) = some shapes) :
    (∀ e, expandEinsum st n shapes = .error e → benignErr e) ∧
    (∀ st1, expandEinsum st n shapes = .ok st1 →
      lint st1.out = true ∧
      (∀ x, (n.name :: seen).contains x = true →
        (lookupEnv st1.env x).isSome = true) ∧
      (∀ x y, lookupEnv st1.env x = some y →
        y ∈ st1.out.map Node.name)) := by
  have hdomargs : ∀ nm, Arg.node nm ∈ n.args →
      (lookupEnv st.env nm).isSome = true := fun nm hnm =>
    hdom nm (List.all_eq_true.mp h11 nm (nodeRefs_args hnm))
  cases hna : n.args with
  | nil =>
    constructor
    · intro e he
      unfold expandEinsum at he
      rw [hna] at he
      cases he
      exact Or.inl ⟨_, rfl⟩
    · intro st1 hok
      unfold expandEinsum at hok
      rw [hna] at hok
      exact absurd hok (by simp)
  | cons a0 tl =>
    cases ha0 : a0 with
    | num i =>
      constructor
      · intro e he
        unfold expandEinsum at he
        rw [hna, ha0] at he
        cases he
        exact Or.inr (Or.inl ⟨_, rfl⟩)
      · intro st1 hok
        unfold expandEinsum at hok
        rw [hna, ha0] at hok
        exact absurd hok (by simp)
    | node nm0 =>
      constructor
      · intro e he
        unfold expandEinsum at he
        rw [hna, ha0] at he
        cases he
        exact Or.inr (Or.inl ⟨_, rfl⟩)
      · intro st1 hok
        unfold expandEinsum at hok
        rw [hna, ha0] at hok
        exact absurd hok (by simp)
    | lit cs =>
      cases hcp : contract_path cs shapes with
      | error e0 =>
        constructor
        · intro e he
          simp only [expandEinsum, hna, ha0, hcp] at he
          cases he
          exact Or.inr (Or.inr (contract_path_err hcp))
        · intro st1 hok
          simp only [expandEinsum, hna, ha0, hcp] at hok
          exact absurd hok (by simp)
      | ok spec =>
        obtain ⟨pargs, hpargs⟩ :=
          mapM_mapArg_total st.env n.args hdomargs
        have hforall2 := mapM_ok_forall2 hpargs
        -- node-valued proxies land in the range of the environment
        have hprange : ∀ nm, Arg.node nm ∈ pargs →
            nm ∈ st.out.map Node.name := by
          intro nm hnm
          obtain ⟨a, _, hr⟩ := forall2_mem_right hforall2 _ hnm
          obtain ⟨x, _, hx⟩ := mapArg_node_inv hr
          exact hran x nm hx
        have hq : ∀ p ∈ spec.inputs.zip (pargs.drop 1), ∀ nm,
            p.2 = Arg.node nm →
            (st.out.map Node.name).contains nm = true := by
          intro p hp nm hpe
          have h2 : p.2 ∈ pargs.drop 1 := (List.of_mem_zip hp).2
          have h3 : p.2 ∈ pargs := List.drop_subset 1 pargs h2
          rw [contains_iff]
          exact hprange nm (hpe ▸ h3)
        -- the operand list fed to the expander is nonempty
        obtain ⟨hparse, _, _, hlen, _, _, _⟩ := contract_path_ok_inv hcp
        have hne : spec.inputs ≠ [] := parseEinstr_inputs_ne_nil hparse
        have hstep : expandEinsum st n shapes
            = .ok ⟨st.out ++ (emitChain (spec.inputs.zip (pargs.drop 1))
                     spec.out st.ctr).1,
                   (n.name, (emitChain (spec.inputs.zip (pargs.drop 1))
                     spec.out st.ctr).2.1) :: st.env,
                   (emitChain (spec.inputs.zip (pargs.drop 1))
                     spec.out st.ctr).2.2, st.warns⟩ := by
          rw [hna, ha0] at hpargs
          simp only [expandEinsum, hna, ha0, hcp, hpargs]
        obtain ⟨q, qs, hzip⟩ :
            ∃ q qs, spec.inputs.zip (pargs.drop 1) = q :: qs := by
          cases hzip0 : spec.inputs.zip (pargs.drop 1) with
          | cons q qs => exact ⟨q, qs, rfl⟩
          | nil =>
            exfalso
            have hlenShapes : shapes.length = tl.length := by
              have h1 := mapM_option_length hsn
              rw [hna] at h1
              simpa using h1
            have hlenPargs : pargs.length = n.args.length :=
              hforall2.length_eq.symm
            have h4 : (pargs.drop 1).length = tl.length := by
              rw [List.length_drop, hlenPargs, hna]
              simp
            have h5 : spec.inputs.length ≠ 0 :=
              fun hc => hne (List.length_eq_zero.mp hc)
            have hzl := congrArg List.length hzip0
            rw [List.length_zip, h4] at hzl
            simp only [List.length_nil] at hzl
            have h6 : spec.inputs.length = tl.length := by omega
            rw [h6, Nat.min_self] at hzl
            omega
        rw [hzip] at hstep
        have hchain : emitChain (q :: qs) spec.out st.ctr
            = emitChainAux q qs spec.out st.ctr := rfl
        rw [hchain] at hstep
        have hq' : ∀ p ∈ q :: qs, ∀ nm, p.2 = Arg.node nm →
            (st.out.map Node.name).contains nm = true := hzip ▸ hq
        constructor
        · intro e he
          rw [hstep] at he
          exact absurd he (by simp)
        · intro st1 hok
          rw [hstep] at hok
          cases hok
          have hlintc : lintAux (st.out.map Node.name)
              (emitChainAux q qs spec.out st.ctr).1 = true :=
            emitChainAux_lint spec.out qs q st.ctr _
              (fun nm hnm => hq' q (by simp) nm hnm)
              (fun p hp nm hnm => hq' p (by simp [hp]) nm hnm)
          have hlint1 : lint (st.out
              ++ (emitChainAux q qs spec.out st.ctr).1) = true :=
            lint_extend hlint hlintc
          refine ⟨hlint1, ?_, ?_⟩
          · intro x hx
            rcases (by simpa using (contains_iff _ _).mp hx :
                x = n.name ∨ x ∈ seen) with rfl | hx'
            · simp [lookupEnv_cons_self]
            · by_cases hxe : x = n.name
              · subst hxe; simp [lookupEnv_cons_self]
              · rw [lookupEnv_cons_ne _ _ _ _ hxe]
                exact hdom x ((contains_iff _ _).mpr hx')
          · intro x y hx
            by_cases hxe : x = n.name
            · subst hxe
              rw [lookupEnv_cons_self] at hx
              cases hx
              simp only [List.map_append, List.mem_append]
              exact Or.inr (emitChainAux_final_mem q qs spec.out st.ctr)
            · rw [lookupEnv_cons_ne _ _ _ _ hxe] at hx
              have := hran x y hx
              simp only [List.map_append, List.mem_append]
              exact Or.inl this

/-- Main invariant run for C9: on a topologically ordered input, every
environment lookup succeeds (no KeyError), and the output graph stays
topologically ordered (the final lint passes). -/
theorem processNodes_wf (g : Graph) :
    ∀ (l : List Node) (st : RSt) (seen : List NName),
      lintAux seen l = true →
      (∀ x, seen.contains x = true →
        (lookupEnv st.env x).isSome = true) →
      (∀ x y, lookupEnv st.env x = some y → y ∈ st.out.map Node.name) →
      lint st.out = true →
      (∀ e, processNodes g l st = .error e → benignErr e) ∧
      (∀ st', processNodes g l st = .ok st' → lint st'.out = true) := by
  intro l
  induction l with
  | nil =>
    intro st seen _ _ _ hlintout
    constructor
    · intro e he
      exact absurd he (by simp [processNodes])
    · intro st' h
      cases h
      exact hlintout
  | cons n ns ih =>
    intro st seen hlint hdom hran hlintout
    obtain ⟨h11, h12⟩ := Bool.and_eq_true _ _ ▸ hlint
    by_cases hb : isEinsumCall n = true
    · cases hsn : argShapes g (n.args.drop 1) with
      | none =>
        have hstep : stepNode g st n = copyInto st n [n.name] := by
          have hsn' : argShapes g n.args.tail = none := by
            rw [← List.drop_one]; exact hsn
          simp [stepNode, hb, hsn']
        obtain ⟨m, st1, hok1, _, _, hlint1, hdom1, hran1⟩ :=
          copy_preserves st n seen [n.name] h11 hdom hran hlintout
        have hih := ih st1 (n.name :: seen) h12 hdom1 hran1 hlint1
        constructor
        · intro e he
          simp only [processNodes, hstep, hok1, exceptBind_ok] at he
          exact hih.1 e he
        · intro st' h
          simp only [processNodes, hstep, hok1, exceptBind_ok] at h
          exact hih.2 st' h
      | some shapes =>
        have hstep : stepNode g st n = expandEinsum st n shapes := by
          have hsn' : argShapes g n.args.tail = some shapes := by
            rw [← List.drop_one]; exact hsn
          simp [stepNode, hb, hsn']
        obtain ⟨herr, hok⟩ :=
          expand_preserves g st n seen shapes h11 hdom hran hlintout hsn
        constructor
        · intro e he
          simp only [processNodes, hstep] at he
          cases hex : expandEinsum st n shapes with
          | error e0 =>
            rw [hex, exceptBind_err] at he
            cases he
            exact herr _ hex
          | ok st1 =>
            rw [hex, exceptBind_ok] at he
            obtain ⟨hlint1, hdom1, hran1⟩ := hok st1 hex
            exact (ih st1 (n.name :: seen) h12 hdom1 hran1 hlint1).1 e he
        · intro st' h
          simp only [processNodes, hstep] at h
          cases hex : expandEinsum st n shapes with
          | error e0 =>
            rw [hex, exceptBind_err] at h
            exact absurd h (by simp)
          | ok st1 =>
            rw [hex, exceptBind_ok] at h
            obtain ⟨hlint1, hdom1, hran1⟩ := hok st1 hex
            exact (ih st1 (n.name :: seen) h12 hdom1 hran1 hlint1).2 st' h
    · have hb' : isEinsumCall n = false := Bool.eq_false_iff.mpr hb
      have hstep : stepNode g st n = copyInto st n [] := by
        simp [stepNode, hb']
      obtain ⟨m, st1, hok1, _, _, hlint1, hdom1, hran1⟩ :=
        copy_preserves st n seen [] h11 hdom hran hlintout
      have hih := ih st1 (n.name :: seen) h12 hdom1 hran1 hlint1
      constructor
      · intro e he
        simp only [processNodes, hstep, hok1, exceptBind_ok] at he
        exact hih.1 e he
      · intro st' h
        simp only [processNodes, hstep, hok1, exceptBind_ok] at h
        exact hih.2 st' h

/-- C9: for every input graph in topological order (each node references
only earlier nodes — the same property `lint` checks), the rewrite maintains
the environment-mapping invariant: every node consumed as an argument
already has an entry when looked up, so no lookup ever fails (no KeyError is
raised), the final structural validation never fails, and the returned graph
itself passes that validation (every reference resolves to an earlier node,
hence no cycles and topological order is preserved). -/
theorem env_invariant_and_lint (g : Graph) (hg : lint g = true) :
    (∀ nm, optimize_einsums_graph g ≠ .error (.keyError nm)) ∧
    optimize_einsums_graph g ≠ .error .lintError ∧
    (∀ g' w, optimize_einsums_graph g = .ok (g', w) → lint g' = true) := by
  have hwf := processNodes_wf g g initRSt [] hg
    (by intro x hx; exact absurd hx (by simp [List.contains]))
    (by intro x y hx; exact absurd hx (by simp [initRSt, lookupEnv]))
    (by simp [initRSt, lint, lintAux])
  refine ⟨?_, ?_, ?_⟩
  · intro nm hc
    unfold optimize_einsums_graph at hc
    split at hc
    · rename_i e0 he0
      cases hc
      rcases hwf.1 _ he0 with ⟨_, h⟩ | ⟨_, h⟩ | ⟨_, h⟩ <;> exact absurd h (by simp)
    · split at hc
      · exact absurd hc (by simp)
      · exact absurd hc (by simp)
  · intro hc
    unfold optimize_einsums_graph at hc
    split at hc
    · rename_i e0 he0
      cases hc
      rcases hwf.1 _ he0 with ⟨_, h⟩ | ⟨_, h⟩ | ⟨_, h⟩ <;> exact absurd h (by simp)
    · rename_i stF hstF
      split at hc
      · exact absurd hc (by simp)
      · rename_i hlf
        exact hlf (hwf.2 stF hstF)
  · intro g' w hok
    obtain ⟨stF, hstF, _, hg', _⟩ := optimize_ok_inv hok
    rw [hg']
    exact hwf.2 stF hstF

theorem env_invariant_and_lint_witness :
    (∀ nm, optimize_einsums_graph fusableG ≠ .error (.keyError nm)) ∧
    optimize_einsums_graph fusableG ≠ .error .lintError ∧
    (∀ g' w, optimize_einsums_graph fusableG = .ok (g', w) →
      lint g' = true) :=
  env_invariant_and_lint fusableG (by decide)

/-! ## Claims C2 and C5: fusion behavior on the test graphs -/

/-- All multi-indices of a shape, in lexicographic order. -/
def allIdx : List Nat → List (List Nat)
  | [] => [[]]
  | d :: ds => (List.range d).foldr
      (fun i acc => (allIdx ds).map (i :: ·) ++ acc) []

/-- Extensional equality of tensors on their (common) shape. -/
def Tensor.eqOn (t u : Tensor) : Bool :=
  t.shape == u.shape &&
  (allIdx t.shape).all (fun idx => t.data idx == u.data idx)

/-- The trivial ambient interpretation: no non-einsum ops. -/
def interp0 : Interp := fun _ _ _ _ => none

/-- Concrete input of shape `(2,1)`: `[[2],[5]]`. -/
def tX : Tensor :=
  ⟨[2, 1], fun idx => if idx = [0, 0] then 2 else if idx = [1, 0] then 5
           else 0⟩

/-- Concrete input of shape `(1,1)`: `[[3]]`. -/
def tY : Tensor := ⟨[1, 1], fun idx => if idx = [0, 0] then 3 else 0⟩

/-- The intermediate `ik` value of the fusable graph on `tX, tY`:
`einsum("ij,jk->ik", x, y) = [[6],[15]]`. -/
def zVal : Tensor :=
  einsumEval [("ij".toList, tX), ("jk".toList, tY)] "ik".toList

/-- Does some node of the graph hold exactly the tensor `t` after
execution? -/
def carriesVal (g' : Graph) (st : ExecSt) (t : Tensor) : Bool :=
  (g'.map Node.name).any (fun nm =>
    match lookupV st.venv nm with
    | some u => u.eqOn t
    | none => false)

/-- After rewriting the fusable graph and executing it on `tX, tY`, some
node still carries the intermediate `ik` tensor. -/
def fusIntermediateRemains : Bool :=
  match optimize_einsums_graph fusableG with
  | .ok (g', _) =>
    match execNodes interp0 g' ⟨[], [tX, tY], none⟩ with
    | some st => carriesVal g' st zVal
    | none => false
  | .error _ => false

/-- Counterexample to C2 as stated: on the fusable test graph the rewrite
succeeds, but executing its output on concrete inputs shows a node that
carries exactly the intermediate `ik` result (`[[6],[15]]`) — the first
einsum's replacement output remains in the graph, so the claim "no node
carrying the intermediate ik result remains" is false.  Each einsum
call-site is optimized independently; no cross-einsum fusion happens. -/
theorem fusion_claim_counterexample : fusIntermediateRemains = true := by
  decide

/-- C2 (amended): on the fusable graph the rewrite removes the intermediate
einsum call-site itself (no node named after it remains), but does not fuse
the two einsums into one contraction: the output graph is exactly
placeholders, the first einsum's replacement (`gen 0`), the second einsum's
replacement (`gen 1`, consuming `gen 0`), and the output node — with `gen 0`
still carrying the intermediate `ik` value. -/
theorem fusion_not_performed_amended :
    isOkB (optimize_einsums_graph fusableG) = true ∧
    (fusableOpt.1.map Node.name).contains (.user "z") = false ∧
    (fusableOpt.1.map Node.name).contains (.gen 0) = true ∧
    (fusableOpt.1.map Node.name).contains (.gen 1) = true ∧
    (fusableOpt.1.filter (fun m => m.name == NName.gen 1)).all
      (fun m => m.args.contains (Arg.node (.gen 0))) = true ∧
    fusIntermediateRemains = true := by
  decide

/-- Semantics of the two non-einsum ops of the unfusable test graph:
`operator.getitem` (column selection, modelling `z[:, 0]`) and
`operator.add`. -/
def interpDemo : Interp := fun _ tgt args _ =>
  if tgt == "operator.getitem" then
    match args with
    | [.tensor t, .int j] =>
      some ⟨[t.shape.headD 0], fun idx => t.data [idx.headD 0, j.toNat]⟩
    | _ => none
  else if tgt == "operator.add" then
    match args with
    | [.tensor a, .tensor b] =>
      some ⟨a.shape, fun idx => a.data idx + b.data idx⟩
    | _ => none
  else none

/-- The graph traced from the test function `unfusable`: the intermediate
einsum result `z` is consumed both by the second einsum and by a non-einsum
`getitem` node. -/
def unfusableG : Graph :=
  [ phNode "x" (some [2, 1]), phNode "y" (some [1, 1]),
    einNode "z" "ij,jk->ik" ["x", "y"] (some [2, 1]),
    einNode "w" "ik,ij->i" ["z", "x"] (some [2]),
    ⟨.user "gi", "call_function", "operator.getitem",
     [.node (.user "z"), .num 0], [], some [2]⟩,
    ⟨.user "add", "call_function", "operator.add",
     [.node (.user "w"), .node (.user "gi")], [], some [2]⟩,
    outNode "output" "add" ]

/-- On the unfusable graph: the rewrite succeeds, the node producing the
intermediate result (`gen 0`, the replacement of `z`) is in the output
graph, the copied non-einsum consumer `gi` still depends on it, and after
execution it carries exactly the intermediate `ik` value. -/
def unfusIntermediatePreserved : Bool :=
  match optimize_einsums_graph unfusableG with
  | .ok (g', _) =>
    ((g'.map Node.name).contains (.gen 0)) &&
    ((g'.map Node.name).contains (.user "gi")) &&
    (g'.all (fun m => !(m.name == NName.user "gi") ||
        m.args.contains (Arg.node (.gen 0)))) &&
    (match execNodes interpDemo g' ⟨[], [tX, tY], none⟩ with
     | some st =>
       match lookupV st.venv (.gen 0) with
       | some t => t.eqOn zVal
       | none => false
     | none => false)
  | .error _ => false

/-- C5: in the unfusable scenario (the intermediate einsum result is also
consumed by a non-einsum node) the node producing the intermediate result
still exists in the output graph, the non-einsum consumer's dependency on it
is preserved (the copied `getitem` node references it), and the live value
is not deleted: executing the output graph still computes the intermediate
`ik` tensor at that node. -/
theorem unfusable_intermediate_preserved :
    unfusIntermediatePreserved = true := by decide

/-! ## Claim C1: semantic equivalence.  Summation toolkit. -/

theorem Tensor.ext2 {t u : Tensor} (h1 : t.shape = u.shape)
    (h2 : ∀ idx, t.data idx = u.data idx) : t = u := by
  cases t
  cases u
  simp only [Tensor.mk.injEq]
  exact ⟨h1, funext h2⟩

theorem updAsn_self (σ : Char → Nat) (a : Char) (v : Nat) :
    updAsn σ a v a = v := by simp [updAsn]

theorem updAsn_other (σ : Char → Nat) (a : Char) (v : Nat) (d : Char)
    (h : d ≠ a) : updAsn σ a v d = σ d := by simp [updAsn, h]

theorem updAsn_comm (σ : Char → Nat) (a b : Char) (v w : Nat) (h : a ≠ b) :
    updAsn (updAsn σ a v) b w = updAsn (updAsn σ b w) a v := by
  funext d
  unfold updAsn
  by_cases h1 : d = b <;> by_cases h2 : d = a <;> simp_all

theorem updAsn_idem (σ : Char → Nat) (a : Char) (v w : Nat) :
    updAsn (updAsn σ a v) a w = updAsn σ a w := by
  funext d
  unfold updAsn
  by_cases h : d = a <;> simp [h]

theorem sumOver_append (ext : Char → Nat) (l1 l2 : List Char)
    (f : (Char → Nat) → Int) (σ : Char → Nat) :
    sumOver ext (l1 ++ l2) f σ
      = sumOver ext l1 (fun τ => sumOver ext l2 f τ) σ := by
  induction l1 generalizing σ with
  | nil => rfl
  | cons c cs ih =>
    simp only [List.cons_append, sumOver]
    exact Finset.sum_congr rfl (fun v _ => ih _)

theorem sumOver_ext_congr {e1 e2 : Char → Nat} (ls : List Char)
    (f : (Char → Nat) → Int) (σ : Char → Nat)
    (h : ∀ c ∈ ls, e1 c = e2 c) :
    sumOver e1 ls f σ = sumOver e2 ls f σ := by
  induction ls generalizing σ with
  | nil => rfl
  | cons c cs ih =>
    simp only [sumOver]
    rw [h c (by simp)]
    exact Finset.sum_congr rfl
      (fun v _ => ih _ (fun d hd => h d (by simp [hd])))

theorem sumOver_fun_congr (ext : Char → Nat) (ls : List Char)
    {f g : (Char → Nat) → Int} (σ : Char → Nat) (h : ∀ τ, f τ = g τ) :
    sumOver ext ls f σ = sumOver ext ls g σ := by
  induction ls generalizing σ with
  | nil => exact h σ
  | cons c cs ih =>
    simp only [sumOver]
    exact Finset.sum_congr rfl (fun v _ => ih _)

theorem sumOver_assign_congr (ext : Char → Nat) (ls : List Char)
    {f : (Char → Nat) → Int} {D : List Char}
    (hf : ∀ τ τ', (∀ c ∈ D, τ c = τ' c) → f τ = f τ')
    {σ σ' : Char → Nat} (hσ : ∀ c ∈ D, c ∉ ls → σ c = σ' c) :
    sumOver ext ls f σ = sumOver ext ls f σ' := by
  induction ls generalizing σ σ' with
  | nil => exact hf σ σ' (fun c hc => hσ c hc (by simp))
  | cons c cs ih =>
    simp only [sumOver]
    refine Finset.sum_congr rfl (fun v _ => ih ?_)
    intro d hd hdn
    by_cases h : d = c
    · subst h; simp [updAsn]
    · rw [updAsn_other _ _ _ _ h, updAsn_other _ _ _ _ h]
      exact hσ d hd (by simp [hdn, h])

theorem sumOver_mul_indep (ext : Char → Nat) (ls : List Char)
    {f g : (Char → Nat) → Int} {D : List Char}
    (hg : ∀ τ τ', (∀ c ∈ D, τ c = τ' c) → g τ = g τ')
    (hD : ∀ c ∈ ls, c ∉ D) (σ : Char → Nat) :
    sumOver ext ls (fun τ => f τ * g τ) σ = sumOver ext ls f σ * g σ := by
  induction ls generalizing σ with
  | nil => rfl
  | cons c cs ih =>
    simp only [sumOver]
    rw [Finset.sum_mul]
    refine Finset.sum_congr rfl (fun v _ => ?_)
    rw [ih (fun d hd => hD d (by simp [hd])) _]
    congr 1
    refine hg _ _ (fun d hd => ?_)
    exact updAsn_other σ c v d (fun hc => hD c (by simp) (hc ▸ hd))

theorem sumOver_perm (ext : Char → Nat) {l1 l2 : List Char}
    (h : l1.Perm l2) (f : (Char → Nat) → Int) :
    ∀ σ, sumOver ext l1 f σ = sumOver ext l2 f σ := by
  induction h with
  | nil => intro σ; rfl
  | cons c _ ih =>
    intro σ
    simp only [sumOver]
    exact Finset.sum_congr rfl (fun v _ => ih _)
  | swap a b l =>
    intro σ
    by_cases hab : a = b
    · subst hab
      simp only [sumOver, updAsn_idem]
    · simp only [sumOver]
      rw [Finset.sum_comm]
      refine Finset.sum_congr rfl (fun v _ => ?_)
      refine Finset.sum_congr rfl (fun w _ => ?_)
      rw [updAsn_comm _ _ _ _ _ (fun hc => hab hc.symm)]
  | trans _ _ ih1 ih2 =>
    intro σ
    exact (ih1 σ).trans (ih2 σ)

theorem perm_of_nodup_mem_iff {l1 l2 : List Char} (h1 : l1.Nodup)
    (h2 : l2.Nodup) (h : ∀ c, c ∈ l1 ↔ c ∈ l2) : l1.Perm l2 :=
  (h1.subperm (fun c hc => (h c).mp hc)).antisymm
    (h2.subperm (fun c hc => (h c).mpr hc))

/-! Membership and nodup facts about `uniq`, `summedLabels`, `stepKeep`. -/

theorem mem_uniqAux (c : Char) :
    ∀ (l : List Char) (seen : List Char),
      c ∈ uniqAux seen l ↔ c ∈ l ∧ c ∉ seen := by
  intro l
  induction l with
  | nil => intro seen; simp [uniqAux]
  | cons d ds ih =>
    intro seen
    simp only [uniqAux]
    split
    · rename_i hd
      rw [ih seen]
      constructor
      · rintro ⟨hc1, hc2⟩
        exact ⟨by simp [hc1], hc2⟩
      · rintro ⟨hc1, hc2⟩
        rcases (by simpa using hc1 : c = d ∨ c ∈ ds) with rfl | hc1'
        · exact absurd ((contains_iff _ _).mp hd) hc2
        · exact ⟨hc1', hc2⟩
    · rename_i hd
      simp only [List.mem_cons]
      rw [ih (d :: seen)]
      constructor
      · rintro (rfl | ⟨hc1, hc2⟩)
        · exact ⟨Or.inl rfl, fun hc => hd ((contains_iff _ _).mpr hc)⟩
        · exact ⟨Or.inr hc1, fun hc => hc2 (by simp [hc])⟩
      · rintro ⟨hc1, hc2⟩
        by_cases hcd : c = d
        · exact Or.inl hcd
        · rcases hc1 with rfl | hc1'
          · exact Or.inl rfl
          · refine Or.inr ⟨hc1', ?_⟩
            intro hc
            rcases List.mem_cons.mp hc with rfl | hc'
            · exact hcd rfl
            · exact hc2 hc'

theorem mem_uniq (c : Char) (l : List Char) : c ∈ uniq l ↔ c ∈ l := by
  simp [uniq, mem_uniqAux]

theorem nodup_uniqAux : ∀ (l seen : List Char), (uniqAux seen l).Nodup := by
  intro l
  induction l with
  | nil => intro seen; simp [uniqAux]
  | cons d ds ih =>
    intro seen
    simp only [uniqAux]
    split
    · exact ih seen
    · refine List.nodup_cons.mpr ⟨?_, ih (d :: seen)⟩
      intro hc
      exact absurd ((mem_uniqAux d ds (d :: seen)).mp hc).2 (by simp)

theorem nodup_uniq (l : List Char) : (uniq l).Nodup := nodup_uniqAux l []

/-- Flatten a list of index strings. -/
def flatStrs (ss : List (List Char)) : List Char := ss.foldr (· ++ ·) []

theorem mem_flatStrs {c : Char} : ∀ {ss : List (List Char)},
    c ∈ flatStrs ss ↔ ∃ s ∈ ss, c ∈ s := by
  intro ss
  induction ss with
  | nil => simp [flatStrs]
  | cons s ss ih =>
    constructor
    · intro h
      rcases List.mem_append.mp h with h | h
      · exact ⟨s, by simp, h⟩
      · obtain ⟨t, ht, hc⟩ := ih.mp h
        exact ⟨t, by simp [ht], hc⟩
    · rintro ⟨t, ht, hc⟩
      rcases List.mem_cons.mp ht with rfl | ht'
      · exact List.mem_append.mpr (Or.inl hc)
      · exact List.mem_append.mpr (Or.inr (ih.mpr ⟨t, ht', hc⟩))

theorem mem_summedLabels {c : Char} {ss : List (List Char)}
    {out : List Char} :
    c ∈ summedLabels ss out ↔ c ∈ flatStrs ss ∧ c ∉ out := by
  simp only [summedLabels, List.mem_filter, mem_uniq, flatStrs,
    Bool.not_eq_true']
  constructor
  · rintro ⟨h1, h2⟩
    refine ⟨h1, fun hc => ?_⟩
    rw [(contains_iff _ _).mpr hc] at h2
    exact absurd h2 (by simp)
  · rintro ⟨h1, h2⟩
    refine ⟨h1, ?_⟩
    cases hc : out.contains c with
    | true => exact absurd ((contains_iff _ _).mp hc) h2
    | false => rfl

theorem nodup_summedLabels (ss : List (List Char)) (out : List Char) :
    (summedLabels ss out).Nodup :=
  (nodup_uniq _).filter _

theorem mem_stepKeep {c : Char} {s1 s2 : List Char}
    {restS : List (List Char)}
    {out : List Char} :
    c ∈ stepKeep s1 s2 restS out ↔
      (c ∈ s1 ∨ c ∈ s2) ∧ (c ∈ flatStrs restS ∨ c ∈ out) := by
  simp only [stepKeep, List.mem_filter, mem_uniq, List.mem_append,
    Bool.or_eq_true, flatStrs]
  constructor
  · rintro ⟨h1, h2⟩
    refine ⟨h1, ?_⟩
    rcases h2 with h2 | h2
    · exact Or.inl ((contains_iff _ _).mp h2)
    · exact Or.inr ((contains_iff _ _).mp h2)
  · rintro ⟨h1, h2⟩
    refine ⟨h1, ?_⟩
    rcases h2 with h2 | h2
    · exact Or.inl ((contains_iff _ _).mpr h2)
    · exact Or.inr ((contains_iff _ _).mpr h2)

theorem nodup_stepKeep (s1 s2 : List Char) (restS : List (List Char))
    (out : List Char) : (stepKeep s1 s2 restS out).Nodup :=
  (nodup_uniq _).filter _

/-! Extent computation facts. -/

theorem firstIdx_none {c : Char} : ∀ {l : List Char}, c ∉ l →
    firstIdx c l = none := by
  intro l
  induction l with
  | nil => intro; rfl
  | cons d ds ih =>
    intro h
    have hd : d ≠ c := fun hc => h (by simp [hc])
    simp only [firstIdx, if_neg hd]
    rw [ih (fun hc => h (by simp [hc]))]
    rfl

theorem firstIdx_get {c : Char} : ∀ {l : List Char} {i : Nat},
    firstIdx c l = some i → l.get? i = some c := by
  intro l
  induction l with
  | nil => intro i h; exact absurd h (by simp [firstIdx])
  | cons d ds ih =>
    intro i h
    simp only [firstIdx] at h
    split at h
    · rename_i hd
      cases h
      simp [hd]
    · cases hfi : firstIdx c ds with
      | none => rw [hfi] at h; exact absurd h (by simp)
      | some j =>
        rw [hfi] at h
        simp only [Option.map_some', Option.some.injEq] at h
        subst h
        simpa using ih hfi

theorem firstIdx_lt {c : Char} : ∀ {l : List Char} {i : Nat},
    firstIdx c l = some i → i < l.length := by
  intro l i h
  have := firstIdx_get h
  exact List.get?_eq_some.mp this |>.1

theorem firstIdx_of_mem {c : Char} : ∀ {l : List Char}, c ∈ l →
    ∃ i, firstIdx c l = some i := by
  intro l
  induction l with
  | nil => intro h; exact absurd h (by simp)
  | cons d ds ih =>
    intro h
    by_cases hd : d = c
    · exact ⟨0, by simp [firstIdx, hd]⟩
    · rcases (by simpa using h : c = d ∨ c ∈ ds) with rfl | h'
      · exact absurd rfl hd
      · obtain ⟨i, hi⟩ := ih h'
        exact ⟨i + 1, by simp [firstIdx, hd, hi]⟩

theorem dimOf_none {c : Char} {s : List Char} {sh : List Nat}
    (h : c ∉ s) : dimOf c s sh = none := by
  simp [dimOf, firstIdx_none h]

theorem dimOf_some {c : Char} {s : List Char} {sh : List Nat}
    (hmem : c ∈ s) (hr : s.length = sh.length) :
    ∃ d, dimOf c s sh = some d := by
  obtain ⟨i, hi⟩ := firstIdx_of_mem hmem
  have hlt : i < sh.length := hr ▸ firstIdx_lt hi
  exact ⟨sh.get ⟨i, hlt⟩, by simp [dimOf, hi, List.get?_eq_get hlt]⟩

theorem extent_first2 {c : Char} {s1 s2 : List Char} {sh1 sh2 : List Nat}
    {restSh : List (List Char × List Nat)}
    (hr1 : s1.length = sh1.length) (hr2 : s2.length = sh2.length)
    (hc : c ∈ s1 ∨ c ∈ s2) :
    extent ((s1, sh1) :: (s2, sh2) :: restSh) c
      = extent [(s1, sh1), (s2, sh2)] c := by
  by_cases h1 : c ∈ s1
  · obtain ⟨d, hd⟩ := dimOf_some h1 hr1
    simp [extent, hd]
  · have h2 : c ∈ s2 := hc.resolve_left h1
    obtain ⟨d, hd⟩ := dimOf_some h2 hr2
    simp [extent, dimOf_none h1, hd]

theorem extent_skip2 {c : Char} {s1 s2 : List Char} {sh1 sh2 : List Nat}
    {restSh : List (List Char × List Nat)}
    (h1 : c ∉ s1) (h2 : c ∉ s2) :
    extent ((s1, sh1) :: (s2, sh2) :: restSh) c = extent restSh c := by
  simp [extent, dimOf_none h1, dimOf_none h2]

theorem extent_head_mapped {c : Char} {keep : List Char} {E2 : Char → Nat}
    {restSh : List (List Char × List Nat)} (hk : c ∈ keep) :
    extent ((keep, keep.map E2) :: restSh) c = E2 c := by
  obtain ⟨i, hi⟩ := firstIdx_of_mem hk
  have hg : keep[i]? = some c := by
    rw [← List.get?_eq_getElem?]
    exact firstIdx_get hi
  simp [extent, dimOf, hi, hg]

theorem extent_head_skip {c : Char} {keep : List Char} {sh : List Nat}
    {restSh : List (List Char × List Nat)} (hk : c ∉ keep) :
    extent ((keep, sh) :: restSh) c = extent restSh c := by
  simp [extent, dimOf_none hk]

/-! `prodOps` facts. -/

theorem prodOps_cons (s : List Char) (T : Tensor)
    (ops : List (List Char × Tensor)) (σ : Char → Nat) :
    prodOps ((s, T) :: ops) σ = T.data (s.map σ) * prodOps ops σ := by
  simp [prodOps]

theorem prodOps_congr {ops : List (List Char × Tensor)}
    {τ τ' : Char → Nat}
    (h : ∀ c ∈ flatStrs (ops.map Prod.fst), τ c = τ' c) :
    prodOps ops τ = prodOps ops τ' := by
  induction ops with
  | nil => rfl
  | cons p ps ih =>
    obtain ⟨s, T⟩ := p
    rw [prodOps_cons, prodOps_cons]
    have hs : s.map τ = s.map τ' := by
      apply List.map_congr_left
      intro c hc
      refine h c (mem_flatStrs.mpr ⟨s, ?_, hc⟩)
      exact List.mem_cons_self s (ps.map Prod.fst)
    have hps : ∀ c ∈ flatStrs (ps.map Prod.fst), τ c = τ' c := by
      intro c hc
      obtain ⟨t, ht, hct⟩ := mem_flatStrs.mp hc
      refine h c (mem_flatStrs.mpr ⟨t, ?_, hct⟩)
      exact List.mem_cons_of_mem s ht
    rw [hs, ih hps]

theorem baseAssign_keep {keep : List Char} {τ : Char → Nat} {c : Char}
    (hk : c ∈ keep) : baseAssign keep (keep.map τ) c = τ c := by
  obtain ⟨i, hi⟩ := firstIdx_of_mem hk
  have h2 : (keep.map τ)[i]? = some (τ c) := by
    rw [List.getElem?_map, ← List.get?_eq_getElem?, firstIdx_get hi]
    rfl
  simp [baseAssign, hi, List.getD_eq_getElem?_getD, h2]

/-- Core semantic fact: combining the first two operands of an einsum into an
intermediate contraction that keeps exactly the labels still needed (by later
operands or the output) does not change the result.  This is the correctness
of one elementary step of a pairwise contraction path. -/
theorem einsum_step (s1 s2 : List Char) (T1 T2 : Tensor)
    (rest : List (List Char × Tensor)) (out : List Char)
    (hr1 : s1.length = T1.shape.length)
    (hr2 : s2.length = T2.shape.length) :
    einsumEval ((s1, T1) :: (s2, T2) :: rest) out
      = einsumEval ((stepKeep s1 s2 (rest.map Prod.fst) out,
          einsumEval [(s1, T1), (s2, T2)]
            (stepKeep s1 s2 (rest.map Prod.fst) out)) :: rest) out := by
  set k := stepKeep s1 s2 (rest.map Prod.fst) out with hkdef
  set E := extent ((s1, T1.shape) :: (s2, T2.shape)
    :: rest.map (fun p => (p.1, p.2.shape))) with hEdef
  set E2 := extent [(s1, T1.shape), (s2, T2.shape)] with hE2def
  set Ep := extent ((k, k.map E2)
    :: rest.map (fun p => (p.1, p.2.shape))) with hEpdef
  set S := summedLabels (s1 :: s2 :: rest.map Prod.fst) out with hSdef
  set Sp := summedLabels (k :: rest.map Prod.fst) out with hSpdef
  set M := summedLabels [s1, s2] k with hMdef
  have hflat2 : ∀ c : Char, c ∈ flatStrs [s1, s2] ↔ c ∈ s1 ∨ c ∈ s2 := by
    intro c
    rw [mem_flatStrs]
    constructor
    · rintro ⟨s, hs, hc⟩
      rcases (by simpa using hs : s = s1 ∨ s = s2) with rfl | rfl
      · exact Or.inl hc
      · exact Or.inr hc
    · rintro (hc | hc)
      · exact ⟨s1, by simp, hc⟩
      · exact ⟨s2, by simp, hc⟩
  have hMmem : ∀ c : Char, c ∈ M ↔ (c ∈ s1 ∨ c ∈ s2) ∧ c ∉ k := by
    intro c
    rw [hMdef, mem_summedLabels, hflat2]
  have hM12 : ∀ c ∈ M, c ∈ s1 ∨ c ∈ s2 :=
    fun c hc => ((hMmem c).mp hc).1
  have hMnk : ∀ c ∈ M, c ∉ k := fun c hc => ((hMmem c).mp hc).2
  have hMnr : ∀ c ∈ M, c ∉ flatStrs (rest.map Prod.fst) := by
    intro c hc hcr
    exact hMnk c hc (hkdef ▸ mem_stepKeep.mpr ⟨hM12 c hc, Or.inl hcr⟩)
  have hkeep12 : ∀ c ∈ k, c ∈ s1 ∨ c ∈ s2 := by
    intro c hc
    exact (mem_stepKeep.mp (hkdef ▸ hc)).1
  have hEkeep : ∀ c ∈ k, Ep c = E c := by
    intro c hc
    rw [hEpdef, extent_head_mapped hc, hEdef,
      extent_first2 hr1 hr2 (hkeep12 c hc), hE2def]
  have hEM : ∀ c ∈ M, E2 c = E c := by
    intro c hc
    rw [hEdef, extent_first2 hr1 hr2 (hM12 c hc), hE2def]
  have hEnot : ∀ c : Char, c ∉ s1 → c ∉ s2 → c ∉ k → Ep c = E c := by
    intro c h1 h2 hck
    rw [hEpdef, extent_head_skip hck, hEdef, extent_skip2 h1 h2]
  have hT12shape : (einsumEval [(s1, T1), (s2, T2)] k).shape = k.map E2 :=
    rfl
  -- data of the intermediate, expressed over an arbitrary assignment
  have hT12data : ∀ τ : Char → Nat,
      (einsumEval [(s1, T1), (s2, T2)] k).data (k.map τ)
        = sumOver E M (prodOps [(s1, T1), (s2, T2)]) τ := by
    intro τ
    show sumOver E2 M (prodOps [(s1, T1), (s2, T2)])
        (baseAssign k (k.map τ))
      = sumOver E M (prodOps [(s1, T1), (s2, T2)]) τ
    have h1 : sumOver E2 M (prodOps [(s1, T1), (s2, T2)])
        (baseAssign k (k.map τ))
        = sumOver E2 M (prodOps [(s1, T1), (s2, T2)]) τ := by
      refine @sumOver_assign_congr E2 M
        (prodOps [(s1, T1), (s2, T2)]) (flatStrs [s1, s2])
        (fun a b hab =>
          @prodOps_congr [(s1, T1), (s2, T2)] a b hab) _ _ ?_
      intro c hc hcm
      have hc12 : c ∈ s1 ∨ c ∈ s2 := (hflat2 c).mp hc
      have hck : c ∈ k := by
        by_contra hck
        exact hcm ((hMmem c).mpr ⟨hc12, hck⟩)
      exact baseAssign_keep hck
    have h2 : sumOver E2 M (prodOps [(s1, T1), (s2, T2)]) τ
        = sumOver E M (prodOps [(s1, T1), (s2, T2)]) τ :=
      sumOver_ext_congr M _ τ (fun c hc => hEM c hc)
    exact h1.trans h2
  apply Tensor.ext2
  · show out.map E = out.map Ep
    refine List.map_congr_left (fun c hc => ?_)
    by_cases hck : c ∈ k
    · exact (hEkeep c hck).symm
    · have h12 : c ∉ s1 ∧ c ∉ s2 := by
        constructor <;> intro hcs
        · exact hck (hkdef ▸ mem_stepKeep.mpr ⟨Or.inl hcs, Or.inr hc⟩)
        · exact hck (hkdef ▸ mem_stepKeep.mpr ⟨Or.inr hcs, Or.inr hc⟩)
      exact (hEnot c h12.1 h12.2 hck).symm
  · intro oidx
    show sumOver E S
        (prodOps ((s1, T1) :: (s2, T2) :: rest)) (baseAssign out oidx)
      = sumOver Ep Sp
        (prodOps ((k, einsumEval [(s1, T1), (s2, T2)] k) :: rest))
        (baseAssign out oidx)
    have hSpmem : ∀ c : Char, c ∈ Sp ↔
        (c ∈ k ∨ c ∈ flatStrs (rest.map Prod.fst)) ∧ c ∉ out := by
      intro c
      rw [hSpdef, mem_summedLabels]
      constructor
      · rintro ⟨h1, h2⟩
        obtain ⟨s, hs, hcs⟩ := mem_flatStrs.mp h1
        rcases List.mem_cons.mp hs with rfl | hs'
        · exact ⟨Or.inl hcs, h2⟩
        · exact ⟨Or.inr (mem_flatStrs.mpr ⟨s, hs', hcs⟩), h2⟩
      · rintro ⟨h1, h2⟩
        refine ⟨?_, h2⟩
        rcases h1 with h1 | h1
        · exact mem_flatStrs.mpr ⟨k, List.mem_cons_self _ _, h1⟩
        · obtain ⟨s, hs, hcs⟩ := mem_flatStrs.mp h1
          exact mem_flatStrs.mpr ⟨s, List.mem_cons_of_mem _ hs, hcs⟩
    have hSmem : ∀ c : Char, c ∈ S ↔
        (c ∈ s1 ∨ c ∈ s2 ∨ c ∈ flatStrs (rest.map Prod.fst)) ∧
          c ∉ out := by
      intro c
      rw [hSdef, mem_summedLabels]
      constructor
      · rintro ⟨h1, h2⟩
        obtain ⟨s, hs, hcs⟩ := mem_flatStrs.mp h1
        rcases List.mem_cons.mp hs with rfl | hs'
        · exact ⟨Or.inl hcs, h2⟩
        · rcases List.mem_cons.mp hs' with rfl | hs''
          · exact ⟨Or.inr (Or.inl hcs), h2⟩
          · exact ⟨Or.inr (Or.inr (mem_flatStrs.mpr ⟨s, hs'', hcs⟩)), h2⟩
      · rintro ⟨h1, h2⟩
        refine ⟨?_, h2⟩
        rcases h1 with h1 | h1 | h1
        · exact mem_flatStrs.mpr ⟨s1, List.mem_cons_self _ _, h1⟩
        · exact mem_flatStrs.mpr
            ⟨s2, List.mem_cons_of_mem _ (List.mem_cons_self _ _), h1⟩
        · obtain ⟨s, hs, hcs⟩ := mem_flatStrs.mp h1
          exact mem_flatStrs.mpr ⟨s,
            List.mem_cons_of_mem _ (List.mem_cons_of_mem _ hs), hcs⟩
    have hperm : (Sp ++ M).Perm S := by
      refine perm_of_nodup_mem_iff ?_ ?_ ?_
      · refine List.Nodup.append ?_ ?_ ?_
        · exact hSpdef ▸ nodup_summedLabels _ _
        · exact hMdef ▸ nodup_summedLabels _ _
        · intro c hcS hcM
          have h1 := (hSpmem c).mp hcS
          rcases h1.1 with h2 | h2
          · exact hMnk c hcM h2
          · exact hMnr c hcM h2
      · exact hSdef ▸ nodup_summedLabels _ _
      · intro c
        rw [List.mem_append, hSpmem c, hSmem c, hMmem c]
        constructor
        · rintro (⟨h1 | h1, h2⟩ | ⟨h1, h2⟩)
          · rcases hkeep12 c h1 with h | h
            · exact ⟨Or.inl h, h2⟩
            · exact ⟨Or.inr (Or.inl h), h2⟩
          · exact ⟨Or.inr (Or.inr h1), h2⟩
          · refine ⟨?_,
              fun hco => h2 (hkdef ▸ mem_stepKeep.mpr ⟨h1, Or.inr hco⟩)⟩
            rcases h1 with h | h
            · exact Or.inl h
            · exact Or.inr (Or.inl h)
        · rintro ⟨h1 | h1 | h1, h2⟩
          · by_cases hck : c ∈ k
            · exact Or.inl ⟨Or.inl hck, h2⟩
            · exact Or.inr ⟨Or.inl h1, hck⟩
          · by_cases hck : c ∈ k
            · exact Or.inl ⟨Or.inl hck, h2⟩
            · exact Or.inr ⟨Or.inr h1, hck⟩
          · exact Or.inl ⟨Or.inr h1, h2⟩
    have hgRest : ∀ τ τ' : Char → Nat,
        (∀ c ∈ flatStrs (rest.map Prod.fst), τ c = τ' c) →
        prodOps rest τ = prodOps rest τ' :=
      fun a b hab => prodOps_congr hab
    calc sumOver E S (prodOps ((s1, T1) :: (s2, T2) :: rest))
          (baseAssign out oidx)
        = sumOver E (Sp ++ M) (prodOps ((s1, T1) :: (s2, T2) :: rest))
            (baseAssign out oidx) :=
          (sumOver_perm E hperm _ _).symm
      _ = sumOver E (Sp ++ M)
            (fun τ => prodOps [(s1, T1), (s2, T2)] τ * prodOps rest τ)
            (baseAssign out oidx) := by
          refine sumOver_fun_congr E _ _ (fun τ => ?_)
          rw [prodOps_cons, prodOps_cons, prodOps_cons]
          show T1.data (s1.map τ) * (T2.data (s2.map τ) * prodOps rest τ)
            = T1.data (s1.map τ) * (T2.data (s2.map τ) * prodOps [] τ)
              * prodOps rest τ
          show T1.data (s1.map τ) * (T2.data (s2.map τ) * prodOps rest τ)
            = T1.data (s1.map τ) * (T2.data (s2.map τ) * 1)
              * prodOps rest τ
          ring
      _ = sumOver E Sp
            (fun τ => sumOver E M
              (fun μ => prodOps [(s1, T1), (s2, T2)] μ * prodOps rest μ)
              τ)
            (baseAssign out oidx) := sumOver_append E Sp M _ _
      _ = sumOver E Sp
            (fun τ => sumOver E M (prodOps [(s1, T1), (s2, T2)]) τ
              * prodOps rest τ)
            (baseAssign out oidx) := by
          refine sumOver_fun_congr E _ _ (fun τ => ?_)
          exact sumOver_mul_indep E M hgRest hMnr τ
      _ = sumOver E Sp
            (prodOps ((k, einsumEval [(s1, T1), (s2, T2)] k) :: rest))
            (baseAssign out oidx) := by
          refine sumOver_fun_congr E _ _ (fun τ => ?_)
          rw [prodOps_cons, hT12data τ]
      _ = sumOver Ep Sp
            (prodOps ((k, einsumEval [(s1, T1), (s2, T2)] k) :: rest))
            (baseAssign out oidx) := by
          refine sumOver_ext_congr Sp _ _ (fun c hc => ?_)
          have h1 := (hSpmem c).mp hc
          by_cases hck : c ∈ k
          · exact (hEkeep c hck).symm
          · have hcr : c ∈ flatStrs (rest.map Prod.fst) :=
              h1.1.resolve_left hck
            have h12 : c ∉ s1 ∧ c ∉ s2 := by
              constructor <;> intro hcs
              · exact hck (hkdef ▸ mem_stepKeep.mpr ⟨Or.inl hcs, Or.inl hcr⟩)
              · exact hck (hkdef ▸ mem_stepKeep.mpr ⟨Or.inr hcs, Or.inl hcr⟩)
            exact (hEnot c h12.1 h12.2 hck).symm

/-- The value computed by the left-to-right pairwise contraction chain (the
semantic mirror of `emitChainAux`). -/
def chainValAux (acc : List Char × Tensor) :
    List (List Char × Tensor) → List Char → Tensor
  | [], out => einsumEval [acc] out
  | [q], out => einsumEval [acc, q] out
  | q :: p :: ps, out =>
      let keep := stepKeep acc.1 q.1 ((p :: ps).map Prod.fst) out
      chainValAux (keep, einsumEval [acc, q] keep) (p :: ps) out

/-- The value computed by the emitted chain. -/
def chainVal (ops : List (List Char × Tensor)) (out : List Char) : Tensor :=
  match ops with
  | [] => einsumEval [] out
  | q :: qs => chainValAux q qs out

theorem chainValAux_eq :
    ∀ (qs : List (List Char × Tensor)) (acc : List Char × Tensor)
      (out : List Char),
      acc.1.length = acc.2.shape.length →
      (∀ p ∈ qs, p.1.length = p.2.shape.length) →
      chainValAux acc qs out = einsumEval (acc :: qs) out := by
  intro qs
  induction qs with
  | nil => intro acc out _ _; rfl
  | cons q ps ih =>
    intro acc out hacc hqs
    cases ps with
    | nil => rfl
    | cons p ps2 =>
      simp only [chainValAux]
      have hstep := einsum_step acc.1 q.1 acc.2 q.2 (p :: ps2) out hacc
        (hqs q (by simp))
      rw [ih (stepKeep acc.1 q.1 ((p :: ps2).map Prod.fst) out,
            einsumEval [acc, q]
              (stepKeep acc.1 q.1 ((p :: ps2).map Prod.fst) out)) out
          ?_ ?_]
      · exact hstep.symm
      · show (stepKeep acc.1 q.1 ((p :: ps2).map Prod.fst) out).length
          = ((stepKeep acc.1 q.1 ((p :: ps2).map Prod.fst) out).map
              (extent [(acc.1, acc.2.shape), (q.1, q.2.shape)])).length
        rw [List.length_map]
      · intro r hr
        exact hqs r (List.mem_cons_of_mem q hr)

/-- The emitted chain computes exactly the einsum value (given operands whose
index strings match their ranks, as `torch.einsum` itself validates). -/
theorem chainVal_eq (ops : List (List Char × Tensor)) (out : List Char)
    (h : ∀ p ∈ ops, p.1.length = p.2.shape.length) :
    chainVal ops out = einsumEval ops out := by
  cases ops with
  | nil => rfl
  | cons q qs =>
    exact chainValAux_eq qs q out (h q (by simp))
      (fun p hp => h p (List.mem_cons_of_mem q hp))

/-! Index-string rendering round-trips through the parser. -/

theorem findArrow_no_dash : ∀ {l : List Char}, '-' ∉ l →
    findArrow l = none := by
  intro l
  induction l with
  | nil => intro _; rfl
  | cons c cs ih =>
    intro h
    cases cs with
    | nil => rfl
    | cons d rest =>
      have hc : ¬(c = '-' ∧ d = '>') :=
        fun hcd => h (by simp [hcd.1])
      simp only [findArrow, if_neg hc]
      rw [ih (fun hm => h (List.mem_cons_of_mem c hm))]
      rfl

theorem findArrow_append {lhs : List Char} (rhs : List Char)
    (h : '-' ∉ lhs) :
    findArrow (lhs ++ '-' :: '>' :: rhs) = some (lhs, rhs) := by
  induction lhs with
  | nil => simp [findArrow]
  | cons c cs ih =>
    have hc : c ≠ '-' := fun hcc => h (by simp [hcc])
    cases cs with
    | nil => simp [findArrow, hc]
    | cons c2 cs2 =>
      have hcond : ¬(c = '-' ∧ c2 = '>') := fun hcd => hc hcd.1
      show findArrow (c :: c2 :: (cs2 ++ '-' :: '>' :: rhs))
        = some (c :: c2 :: cs2, rhs)
      simp only [findArrow, if_neg hcond]
      rw [show c2 :: (cs2 ++ '-' :: '>' :: rhs)
            = (c2 :: cs2) ++ '-' :: '>' :: rhs from rfl]
      rw [ih (fun hm => h (List.mem_cons_of_mem c hm))]
      rfl

theorem splitOnComma_no_comma : ∀ {s : List Char}, ',' ∉ s →
    splitOnComma s = [s] := by
  intro s
  induction s with
  | nil => intro _; rfl
  | cons c cs ih =>
    intro h
    have hc : c ≠ ',' := fun hcc => h (by simp [hcc])
    have ih' := ih (fun hm => h (List.mem_cons_of_mem c hm))
    simp [splitOnComma, hc, ih']

theorem splitOnComma_append {s : List Char} (r : List Char)
    (h : ',' ∉ s) :
    splitOnComma (s ++ ',' :: r) = s :: splitOnComma r := by
  induction s with
  | nil => simp [splitOnComma]
  | cons c cs ih =>
    have hc : c ≠ ',' := fun hcc => h (by simp [hcc])
    have ih' := ih (fun hm => h (List.mem_cons_of_mem c hm))
    simp [splitOnComma, hc, ih']

theorem splitOnComma_joinComma : ∀ {ss : List (List Char)}, ss ≠ [] →
    (∀ s ∈ ss, ',' ∉ s) → splitOnComma (joinComma ss) = ss := by
  intro ss
  induction ss with
  | nil => intro h _; exact absurd rfl h
  | cons s ss2 ih =>
    intro _ hcomma
    cases ss2 with
    | nil => exact splitOnComma_no_comma (hcomma s (by simp))
    | cons s2 ss3 =>
      show splitOnComma (s ++ ',' :: joinComma (s2 :: ss3)) = s :: s2 :: ss3
      rw [splitOnComma_append _ (hcomma s (by simp))]
      rw [ih (by simp) (fun t ht => hcomma t (List.mem_cons_of_mem s ht))]

theorem mem_joinComma {c : Char} : ∀ {ss : List (List Char)},
    c ∈ joinComma ss → c = ',' ∨ ∃ s ∈ ss, c ∈ s := by
  intro ss
  induction ss with
  | nil => intro h; exact absurd h (by simp [joinComma])
  | cons s ss2 ih =>
    intro h
    cases ss2 with
    | nil => exact Or.inr ⟨s, by simp, h⟩
    | cons s2 ss3 =>
      rcases List.mem_append.mp h with h1 | h1
      · exact Or.inr ⟨s, by simp, h1⟩
      · rcases List.mem_cons.mp h1 with rfl | h2
        · exact Or.inl rfl
        · rcases ih h2 with h3 | ⟨t, ht, hct⟩
          · exact Or.inl h3
          · exact Or.inr ⟨t, List.mem_cons_of_mem s ht, hct⟩

/-- The einsum index strings emitted for the elementary contraction nodes
decode back to exactly the intended specification. -/
theorem parseEinstr_encode (ss : List (List Char)) (out : List Char)
    (hne : ss ≠ [])
    (halpha : ∀ s ∈ ss, ∀ c ∈ s, c.isAlpha = true)
    (houtalpha : ∀ c ∈ out, c.isAlpha = true) :
    parseEinstr (encodeEinstr ss out) = some ⟨ss, out⟩ := by
  have hdash : '-' ∉ joinComma ss := by
    intro h
    rcases mem_joinComma h with h1 | ⟨s, hs, hc⟩
    · exact absurd h1 (by decide)
    · exact absurd (halpha s hs '-' hc) (by decide)
  have hdashout : '-' ∉ out :=
    fun h => absurd (houtalpha '-' h) (by decide)
  unfold parseEinstr encodeEinstr
  rw [findArrow_append out hdash]
  show (if (findArrow out).isSome = true then none
        else some (⟨splitOnComma (joinComma ss), out⟩ : EinSpec))
      = some ⟨ss, out⟩
  rw [findArrow_no_dash hdashout]
  simp only [Option.isSome_none, Bool.false_eq_true, if_false]
  rw [splitOnComma_joinComma hne
    (fun s hs hc => absurd (halpha s hs ',' hc) (by decide))]

/-! Executing the emitted chain. -/

instance : Inhabited Tensor := ⟨⟨[], fun _ => 0⟩⟩

/-- Relation between a chain operand (index string and graph argument) and
its runtime value under a given environment. -/
def ChainRel (venv : List (NName × Tensor)) (p : List Char × Arg)
    (q : List Char × Tensor) : Prop :=
  p.1 = q.1 ∧ resolveObj venv p.2 = some (.tensor q.2) ∧
  q.1.length = q.2.shape.length ∧ (∀ c ∈ q.1, c.isAlpha = true)

theorem forall2_pairs_fst {α β γ : Type}
    {R : (γ × α) → (γ × β) → Prop}
    (hR : ∀ p q, R p q → p.1 = q.1) :
    ∀ {l : List (γ × α)} {r : List (γ × β)}, List.Forall₂ R l r →
      l.map Prod.fst = r.map Prod.fst := by
  intro l r h
  induction h with
  | nil => rfl
  | cons h1 _ ih => simp [ih, hR _ _ h1]

theorem lookupV_cons_self (venv : List (NName × Tensor)) (k : NName)
    (t : Tensor) : lookupV ((k, t) :: venv) k = some t := by
  simp [lookupV]

theorem lookupV_cons_ne (venv : List (NName × Tensor)) (k : NName)
    (t : Tensor) (x : NName) (h : x ≠ k) :
    lookupV ((k, t) :: venv) x = lookupV venv x := by
  simp only [lookupV]
  rw [List.find?_cons_of_neg _
        (by simp only [beq_iff_eq]; exact fun hc => h hc.symm)]

/-- Resolution of an argument is stable under binding a fresh generated
name. -/
theorem resolveObj_fresh {venv : List (NName × Tensor)} {a : Arg} {o : Obj}
    (ho : resolveObj venv a = some o) {k : Nat} {t : Tensor}
    (hfresh : lookupV venv (.gen k) = none) :
    resolveObj ((NName.gen k, t) :: venv) a = some o := by
  cases a with
  | lit cs => exact ho
  | num i => exact ho
  | node nm =>
    simp only [resolveObj] at ho ⊢
    have hne : nm ≠ NName.gen k := by
      intro hc
      rw [hc, hfresh] at ho
      exact absurd ho (by simp)
    rw [lookupV_cons_ne _ _ _ _ hne]
    exact ho

/-- Executing one emitted contraction node. -/
theorem execNode_chain (ip : Interp) (st : ExecSt) (k : Nat)
    (ss : List (List Char)) (res : List Char) (ops : List Arg)
    (opsT : List Tensor)
    (hne : ss ≠ [])
    (halpha : ∀ s ∈ ss, ∀ c ∈ s, c.isAlpha = true)
    (hresalpha : ∀ c ∈ res, c.isAlpha = true)
    (hresolve : ops.mapM (fun a => (resolveObj st.venv a).bind asTensor)
      = some opsT)
    (hcount : ss.length = opsT.length)
    (hrank : ((ss.zip opsT).all
      (fun p => p.1.length == p.2.shape.length)) = true) :
    execNode ip st (mkChainNode k ss res ops)
      = some ⟨(NName.gen k, einsumEval (ss.zip opsT) res) :: st.venv,
              st.inputs, st.ret⟩ := by
  have hparse := parseEinstr_encode ss res hne halpha hresalpha
  have hres' : List.mapM.loop
      (fun a => (resolveObj st.venv a).bind asTensor) ops []
      = some opsT := hresolve
  simp [execNode, mkChainNode, isEinsumCall, EINSUM_FUNCS, hparse,
    hres', hcount, hrank]

/-- Executing the entire emitted chain computes `chainValAux` and binds it
to the final generated name, leaving inputs, return value, and every
existing binding untouched. -/
theorem execChainAux (ip : Interp) :
    ∀ (qs : List (List Char × Arg)) (qsT : List (List Char × Tensor))
      (q : List Char × Arg) (qT : List Char × Tensor)
      (out : List Char) (ctr : Nat) (st : ExecSt),
      ChainRel st.venv q qT →
      List.Forall₂ (ChainRel st.venv) qs qsT →
      (∀ c ∈ out, c.isAlpha = true) →
      (∀ j, ctr ≤ j → lookupV st.venv (.gen j) = none) →
      ∃ venv',
        execNodes ip (emitChainAux q qs out ctr).1 st
          = some ⟨venv', st.inputs, st.ret⟩ ∧
        lookupV venv' (emitChainAux q qs out ctr).2.1
          = some (chainValAux qT qsT out) ∧
        (∀ x t, lookupV st.venv x = some t → lookupV venv' x = some t) ∧
        (∀ j, (emitChainAux q qs out ctr).2.2 ≤ j →
          lookupV venv' (.gen j) = none) := by
  intro qs
  induction qs with
  | nil =>
    intro qsT q qT out ctr st hq hqs houtalpha hfresh
    cases hqs
    obtain ⟨hstr, hres, hrank, halpha⟩ := hq
    have hresolve : List.mapM.loop
        (fun a => (resolveObj st.venv a).bind asTensor) [q.2] []
        = some [qT.2] := by
      simp [List.mapM.loop, hres, asTensor]
    have hstep := execNode_chain ip st ctr [q.1] out [q.2] [qT.2]
      (by simp)
      (by intro s hs c hc
          rcases (by simpa using hs : s = q.1) with rfl
          exact halpha c (hstr ▸ hc))
      houtalpha hresolve (by simp)
      (by simp [hstr, hrank])
    refine ⟨(NName.gen ctr, einsumEval ([q.1].zip [qT.2]) out) :: st.venv,
      ?_, ?_, ?_, ?_⟩
    · simp [emitChainAux, execNodes, hstep]
    · simp only [emitChainAux]
      rw [lookupV_cons_self]
      congr 1
      show einsumEval [(q.1, qT.2)] out = chainValAux qT [] out
      rw [hstr]
      rfl
    · intro x t hx
      have hne : x ≠ NName.gen ctr := by
        intro hc
        rw [hc, hfresh ctr (le_refl _)] at hx
        exact absurd hx (by simp)
      rw [lookupV_cons_ne _ _ _ _ hne]
      exact hx
    · intro j hj
      simp only [emitChainAux] at hj
      have hne : NName.gen j ≠ NName.gen ctr := by
        intro hc
        simp only [NName.gen.injEq] at hc
        omega
      rw [lookupV_cons_ne _ _ _ _ hne]
      exact hfresh j (by omega)
  | cons p ps ih =>
    intro qsT q qT out ctr st hq hqs houtalpha hfresh
    cases hqs with
    | cons hp hps =>
      rename_i pT psT
      obtain ⟨hstr, hres, hrank, halpha⟩ := hq
      obtain ⟨hstrp, hresp, hrankp, halphap⟩ := hp
      cases ps with
      | nil =>
        cases hps
        have hresolve : List.mapM.loop
            (fun a => (resolveObj st.venv a).bind asTensor) [q.2, p.2] []
            = some [qT.2, pT.2] := by
          simp [List.mapM.loop, hres, hresp, asTensor]
        have hstep := execNode_chain ip st ctr [q.1, p.1] out
          [q.2, p.2] [qT.2, pT.2]
          (by simp)
          (by intro s hs c hc
              rcases (by simpa using hs : s = q.1 ∨ s = p.1) with rfl | rfl
              · exact halpha c (hstr ▸ hc)
              · exact halphap c (hstrp ▸ hc))
          houtalpha hresolve (by simp)
          (by simp [hstr, hstrp, hrank, hrankp])
        refine ⟨(NName.gen ctr,
            einsumEval ([q.1, p.1].zip [qT.2, pT.2]) out) :: st.venv,
          ?_, ?_, ?_, ?_⟩
        · simp [emitChainAux, execNodes, hstep]
        · simp only [emitChainAux]
          rw [lookupV_cons_self]
          congr 1
          show einsumEval [(q.1, qT.2), (p.1, pT.2)] out
            = chainValAux qT [pT] out
          rw [hstr, hstrp]
          rfl
        · intro x t hx
          have hne : x ≠ NName.gen ctr := by
            intro hc
            rw [hc, hfresh ctr (le_refl _)] at hx
            exact absurd hx (by simp)
          rw [lookupV_cons_ne _ _ _ _ hne]
          exact hx
        · intro j hj
          simp only [emitChainAux] at hj
          have hne : NName.gen j ≠ NName.gen ctr := by
            intro hc
            simp only [NName.gen.injEq] at hc
            omega
          rw [lookupV_cons_ne _ _ _ _ hne]
          exact hfresh j (by omega)
      | cons p2 ps2 =>
        cases hps with
        | cons hp2 hps2 =>
          rename_i p2T ps2T
          -- the kept labels, on the argument and on the tensor side
          have hmapfst : (p2 :: ps2).map Prod.fst
              = (p2T :: ps2T).map Prod.fst :=
            forall2_pairs_fst (fun a b hab => hab.1)
              (List.Forall₂.cons hp2 hps2)
          set keep := stepKeep q.1 p.1 ((p2 :: ps2).map Prod.fst) out
            with hkeepdef
          have hkeepalpha : ∀ c ∈ keep, c.isAlpha = true := by
            intro c hc
            rcases (mem_stepKeep.mp (hkeepdef ▸ hc)).1 with h | h
            · exact halpha c (hstr ▸ h)
            · exact halphap c (hstrp ▸ h)
          have hresolve : List.mapM.loop
              (fun a => (resolveObj st.venv a).bind asTensor) [q.2, p.2] []
              = some [qT.2, pT.2] := by
            simp [List.mapM.loop, hres, hresp, asTensor]
          have hstep := execNode_chain ip st ctr [q.1, p.1] keep
            [q.2, p.2] [qT.2, pT.2]
            (by simp)
            (by intro s hs c hc
                rcases (by simpa using hs : s = q.1 ∨ s = p.1) with rfl | rfl
                · exact halpha c (hstr ▸ hc)
                · exact halphap c (hstrp ▸ hc))
            hkeepalpha hresolve (by simp)
            (by simp [hstr, hstrp, hrank, hrankp])
          set T12 : Tensor := einsumEval ([q.1, p.1].zip [qT.2, pT.2]) keep
            with hT12def
          set st1 : ExecSt :=
            ⟨(NName.gen ctr, T12) :: st.venv, st.inputs, st.ret⟩
            with hst1def
          have hfresh1 : ∀ j, ctr + 1 ≤ j →
              lookupV st1.venv (.gen j) = none := by
            intro j hj
            have hne : NName.gen j ≠ NName.gen ctr := by
              intro hc
              simp only [NName.gen.injEq] at hc
              omega
            rw [hst1def]
            show lookupV ((NName.gen ctr, T12) :: st.venv) (.gen j) = none
            rw [lookupV_cons_ne _ _ _ _ hne]
            exact hfresh j (by omega)
          have hq' : ChainRel st1.venv (keep, Arg.node (.gen ctr))
              (keep, T12) := by
            refine ⟨rfl, ?_, ?_, hkeepalpha⟩
            · show resolveObj ((NName.gen ctr, T12) :: st.venv)
                (Arg.node (.gen ctr)) = some (.tensor T12)
              simp [resolveObj, lookupV_cons_self]
            · show keep.length = T12.shape.length
              rw [hT12def]
              show keep.length = (keep.map
                (extent [(q.1, qT.2.shape), (p.1, pT.2.shape)])).length
              rw [List.length_map]
          have hps' : List.Forall₂ (ChainRel st1.venv) (p2 :: ps2)
              (p2T :: ps2T) := by
            refine (List.Forall₂.cons hp2 hps2).imp ?_
            intro a b hab
            obtain ⟨h1, h2, h3, h4⟩ := hab
            refine ⟨h1, ?_, h3, h4⟩
            rw [hst1def]
            exact resolveObj_fresh h2 (hfresh ctr (le_refl _))
          obtain ⟨venv', hexec, hval, hpres, hfresh'⟩ :=
            ih (p2T :: ps2T) (keep, Arg.node (.gen ctr)) (keep, T12)
              out (ctr + 1) st1 hq' hps' houtalpha hfresh1
          have hemit : emitChainAux q (p :: p2 :: ps2) out ctr
              = (mkChainNode ctr [q.1, p.1] keep [q.2, p.2] ::
                  (emitChainAux (keep, Arg.node (.gen ctr)) (p2 :: ps2)
                    out (ctr + 1)).1,
                 (emitChainAux (keep, Arg.node (.gen ctr)) (p2 :: ps2)
                    out (ctr + 1)).2) := by
            obtain ⟨s2, a2⟩ := p
            rfl
          have hvc : chainValAux qT (pT :: p2T :: ps2T) out
              = chainValAux (keep, T12) (p2T :: ps2T) out := by
            have hkeepT : stepKeep qT.1 pT.1 ((p2T :: ps2T).map Prod.fst)
                out = keep := by
              rw [hkeepdef, hstr, hstrp, hmapfst]
            have hT12' : einsumEval [qT, pT] keep = T12 := by
              rw [hT12def]
              show einsumEval [qT, pT] keep
                = einsumEval [(q.1, qT.2), (p.1, pT.2)] keep
              rw [hstr, hstrp]
            simp only [chainValAux]
            rw [hkeepT, hT12']
          refine ⟨venv', ?_, ?_, ?_, ?_⟩
          · rw [hemit]
            show (execNode ip st
                (mkChainNode ctr [q.1, p.1] keep [q.2, p.2])).bind
              (execNodes ip (emitChainAux (keep, Arg.node (.gen ctr))
                (p2 :: ps2) out (ctr + 1)).1)
              = some ⟨venv', st.inputs, st.ret⟩
            rw [hstep]
            exact hexec
          · rw [hemit, hvc]
            exact hval
          · intro x t hx
            have hne : x ≠ NName.gen ctr := by
              intro hc
              rw [hc, hfresh ctr (le_refl _)] at hx
              exact absurd hx (by simp)
            refine hpres x t ?_
            rw [hst1def]
            show lookupV ((NName.gen ctr, T12) :: st.venv) x = some t
            rw [lookupV_cons_ne _ _ _ _ hne]
            exact hx
          · intro j hj
            rw [hemit] at hj
            exact hfresh' j hj

/-! ## Claim C1: semantic preservation of the rewrite -/

theorem optionMap_some_inv {α β : Type} {x : Option α} {f : α → β} {b : β}
    (h : x.map f = some b) : ∃ a, x = some a ∧ b = f a := by
  cases x with
  | none => exact absurd h (by simp)
  | some a => exact ⟨a, rfl, (Option.some.inj h).symm⟩

theorem optionBind_some_inv {α β : Type} {x : Option α} {f : α → Option β}
    {b : β} (h : x.bind f = some b) : ∃ a, x = some a ∧ f a = some b := by
  cases x with
  | none => exact absurd h (by simp)
  | some a => exact ⟨a, rfl, h⟩

theorem asTensor_some_inv {o : Obj} {t : Tensor} (h : asTensor o = some t) :
    o = .tensor t := by
  cases o with
  | int i => exact absurd h (by simp [asTensor])
  | str cs => exact absurd h (by simp [asTensor])
  | tensor u => exact congrArg Obj.tensor (Option.some.inj h)

theorem mapArg_lit_inv {env : List (NName × NName)} {cs : List Char}
    {b : Arg} (h : mapArg env (.lit cs) = .ok b) : b = .lit cs :=
  (Except.ok.inj h).symm

/-- Resolution agreement between the two executions: an argument remapped
through `env` resolves in the new environment to the same object the original
argument resolves to in the old environment. -/
theorem resolveObj_rel {env : List (NName × NName)}
    {vO vN : List (NName × Tensor)}
    (hC : ∀ o nw, lookupEnv env o = some nw →
      ∀ t, lookupV vO o = some t → lookupV vN nw = some t)
    {a a' : Arg} (hmap : mapArg env a = .ok a') {o : Obj}
    (ho : resolveObj vO a = some o) : resolveObj vN a' = some o := by
  cases a with
  | lit cs => cases hmap; exact ho
  | num i => cases hmap; exact ho
  | node nm =>
    simp only [mapArg] at hmap
    cases he : lookupEnv env nm with
    | none => rw [he] at hmap; exact absurd hmap (by simp)
    | some nw =>
      rw [he] at hmap
      cases hmap
      simp only [resolveObj] at ho ⊢
      cases hv : lookupV vO nm with
      | none => rw [hv] at ho; exact absurd ho (by simp)
      | some t =>
        rw [hv] at ho
        rw [hC nm nw he t hv]
        exact ho

/-- Transport of a successful elementwise resolution through the remapped
argument list. -/
theorem mapM_rel_option {α β γ : Type} {f : α → Except RErr β}
    {gO : α → Option γ} {gN : β → Option γ}
    (hrel : ∀ a b, f a = .ok b → ∀ c, gO a = some c → gN b = some c) :
    ∀ {l : List α} {l' : List β},
      List.Forall₂ (fun a b => f a = .ok b) l l' →
      ∀ {cs : List γ}, l.mapM gO = some cs → l'.mapM gN = some cs := by
  intro l l' hF
  induction hF with
  | nil => intro cs h; cases h; rfl
  | cons hab hFt ih =>
    rename_i a b l1 l2
    intro cs h
    rw [List.mapM_cons] at h ⊢
    cases hga : gO a with
    | none => rw [hga] at h; exact absurd h (by simp [Option.bind, bind])
    | some c =>
      rw [hga] at h
      cases hm : l1.mapM gO with
      | none =>
        rw [hm] at h
        exact absurd h (by simp [Option.bind, bind, pure])
      | some cs0 =>
        rw [hm] at h
        have hcs : cs = c :: cs0 := by
          simpa [Option.bind, bind, pure] using h.symm
        subst hcs
        rw [hrel a b hab c hga, ih hm]
        rfl

/-- Reduction of `execNode` at a placeholder. -/
theorem execNode_ph_eq (ip : Interp) (st : ExecSt) (n : Node)
    (hop : n.op = "placeholder") :
    execNode ip st n = (match st.inputs with
      | [] => none
      | t :: ts => some ⟨(n.name, t) :: st.venv, ts, st.ret⟩) := by
  unfold execNode
  rw [if_pos (by simp [hop])]

/-- Reduction of `execNode` at the output node. -/
theorem execNode_out_eq (ip : Interp) (st : ExecSt) (n : Node)
    (hop : n.op = "output") :
    execNode ip st n = (match n.args with
      | [a] => (resolveObj st.venv a).map
          (fun o => ⟨st.venv, st.inputs,
                     match st.ret with | none => some o | some r => some r⟩)
      | _ => none) := by
  unfold execNode
  rw [if_neg (by simp [hop]), if_pos (by simp [hop])]

/-- Reduction of `execNode` at a recognized einsum call-site. -/
theorem execNode_einsum_eq (ip : Interp) (st : ExecSt) (n : Node)
    (hein : isEinsumCall n = true) (cs : List Char) (tl : List Arg)
    (hargs : n.args = .lit cs :: tl) :
    execNode ip st n = (match parseEinstr cs with
      | none => none
      | some spec =>
        match tl.mapM (fun a => (resolveObj st.venv a).bind asTensor) with
        | none => none
        | some ts =>
          if spec.inputs.length = ts.length ∧
             (spec.inputs.zip ts).all
               (fun p => p.1.length == p.2.shape.length) then
            some ⟨(n.name, einsumEval (spec.inputs.zip ts) spec.out)
                    :: st.venv, st.inputs, st.ret⟩
          else none) := by
  have hopcf : n.op = "call_function" := by
    unfold isEinsumCall at hein
    obtain ⟨h1, _⟩ := Bool.and_eq_true _ _ |>.mp hein
    exact eq_of_beq h1
  unfold execNode
  rw [if_neg (by simp [hopcf]), if_neg (by simp [hopcf]), if_pos hein, hargs]

/-- Reduction of `execNode` at an uninterpreted node. -/
theorem execNode_gen_eq (ip : Interp) (st : ExecSt) (n : Node)
    (hop1 : ¬n.op = "placeholder") (hop2 : ¬n.op = "output")
    (hein : isEinsumCall n = false) :
    execNode ip st n = (match n.args.mapM (resolveObj st.venv),
        n.kwargs.mapM (fun p => (resolveObj st.venv p.2).map ((p.1, ·))) with
      | some objs, some kvs =>
        (ip n.op n.target objs kvs).map
          (fun t => ⟨(n.name, t) :: st.venv, st.inputs, st.ret⟩)
      | _, _ => none) := by
  unfold execNode
  rw [if_neg (by simp [hop1]), if_neg (by simp [hop2]),
      if_neg (by simp [hein])]

/-- The simulation invariant between the rewrite state after a processed
prefix and the execution states of the original and the rewritten graph:
inputs and return value agree, the environment mapping sends old bindings to
equal new bindings, `env`'s range is original names and already-spent
generated names, generated names at or above the counter are unbound in the
new execution, and the old execution binds only processed node names. -/
structure SimInv (g : Graph) (pre : List Node) (stR : RSt)
    (stO stN : ExecSt) : Prop where
  inputs_eq : stN.inputs = stO.inputs
  ret_eq : stN.ret = stO.ret
  env_rel : ∀ o nw, lookupEnv stR.env o = some nw →
    ∀ t, lookupV stO.venv o = some t → lookupV stN.venv nw = some t
  env_spec : ∀ o nw, lookupEnv stR.env o = some nw →
    nw = o ∨ ∃ k, nw = NName.gen k ∧ k < stR.ctr
  fresh : ∀ j, stR.ctr ≤ j → lookupV stN.venv (.gen j) = none
  dom : ∀ nm t, lookupV stO.venv nm = some t → nm ∈ pre.map Node.name

/-- Invariant update for a copied node that binds its value in both
executions (placeholder, einsum, uninterpreted call). -/
theorem simInv_copy_bind {g : Graph} {pre : List Node} {n : Node}
    (hun : userNamed n = true) {stR : RSt} {stO stN : ExecSt}
    (hinv : SimInv g pre stR stO stN)
    (hnameO : lookupV stO.venv n.name = none)
    (v : Tensor) {insO insN : List Tensor} (hio : insN = insO)
    (outl : List Node) (wl : List NName) :
    SimInv g (pre ++ [n])
      ⟨outl, (n.name, n.name) :: stR.env, stR.ctr, wl⟩
      ⟨(n.name, v) :: stO.venv, insO, stO.ret⟩
      ⟨(n.name, v) :: stN.venv, insN, stN.ret⟩ := by
  obtain ⟨s, hs⟩ := userNamed_elim hun
  refine ⟨hio, hinv.ret_eq, ?_, ?_, ?_, ?_⟩
  · intro o nw he t ht
    by_cases ho : o = n.name
    · subst ho
      rw [lookupEnv_cons_self] at he
      cases he
      rw [lookupV_cons_self] at ht
      cases ht
      rw [lookupV_cons_self]
    · rw [lookupEnv_cons_ne _ _ _ _ ho] at he
      have hnw : nw ≠ n.name := by
        rcases hinv.env_spec o nw he with rfl | ⟨k, rfl, _⟩
        · exact ho
        · rw [hs]; intro hc; cases hc
      rw [lookupV_cons_ne _ _ _ _ ho] at ht
      rw [lookupV_cons_ne _ _ _ _ hnw]
      exact hinv.env_rel o nw he t ht
  · intro o nw he
    by_cases ho : o = n.name
    · subst ho
      rw [lookupEnv_cons_self] at he
      cases he
      exact Or.inl rfl
    · rw [lookupEnv_cons_ne _ _ _ _ ho] at he
      exact hinv.env_spec o nw he
  · intro j hj
    have hne : NName.gen j ≠ n.name := by rw [hs]; intro hc; cases hc
    rw [lookupV_cons_ne _ _ _ _ hne]
    exact hinv.fresh j hj
  · intro nm t ht
    by_cases hnm : nm = n.name
    · subst hnm; simp
    · rw [lookupV_cons_ne _ _ _ _ hnm] at ht
      have := hinv.dom nm t ht
      simp only [List.map_append, List.mem_append]
      exact Or.inl this

/-- Invariant update for a copied node that binds nothing (the output
node). -/
theorem simInv_copy_nobind {g : Graph} {pre : List Node} {n : Node}
    {stR : RSt} {stO stN : ExecSt}
    (hinv : SimInv g pre stR stO stN)
    (hnameO : lookupV stO.venv n.name = none)
    (r' : Option Obj) (outl : List Node) (wl : List NName) :
    SimInv g (pre ++ [n])
      ⟨outl, (n.name, n.name) :: stR.env, stR.ctr, wl⟩
      ⟨stO.venv, stO.inputs, r'⟩
      ⟨stN.venv, stN.inputs, r'⟩ := by
  refine ⟨hinv.inputs_eq, rfl, ?_, ?_, hinv.fresh, ?_⟩
  · intro o nw he t ht
    by_cases ho : o = n.name
    · subst ho
      rw [hnameO] at ht
      exact absurd ht (by simp)
    · rw [lookupEnv_cons_ne _ _ _ _ ho] at he
      exact hinv.env_rel o nw he t ht
  · intro o nw he
    by_cases ho : o = n.name
    · subst ho
      rw [lookupEnv_cons_self] at he
      cases he
      exact Or.inl rfl
    · rw [lookupEnv_cons_ne _ _ _ _ ho] at he
      exact hinv.env_spec o nw he
  · intro nm t ht
    have := hinv.dom nm t ht
    simp only [List.map_append, List.mem_append]
    exact Or.inl this

/-- Invariant update for an expanded einsum call-site. -/
theorem simInv_expand {g : Graph} {pre : List Node} {n : Node}
    (hun : userNamed n = true) {stR : RSt} {stO stN : ExecSt}
    (hinv : SimInv g pre stR stO stN)
    (hnameO : lookupV stO.venv n.name = none)
    {venv' : List (NName × Tensor)} (fin : NName) (ctr' : Nat)
    {vval : Tensor}
    (hfin : ∃ k, fin = NName.gen k ∧ k < ctr')
    (hctr : stR.ctr ≤ ctr')
    (hval : lookupV venv' fin = some vval)
    (hpres : ∀ x t, lookupV stN.venv x = some t → lookupV venv' x = some t)
    (hfreshC : ∀ j, ctr' ≤ j → lookupV venv' (.gen j) = none)
    (outl : List Node) (wl : List NName) :
    SimInv g (pre ++ [n])
      ⟨outl, (n.name, fin) :: stR.env, ctr', wl⟩
      ⟨(n.name, vval) :: stO.venv, stO.inputs, stO.ret⟩
      ⟨venv', stN.inputs, stN.ret⟩ := by
  obtain ⟨s, hs⟩ := userNamed_elim hun
  refine ⟨hinv.inputs_eq, hinv.ret_eq, ?_, ?_, hfreshC, ?_⟩
  · intro o nw he t ht
    by_cases ho : o = n.name
    · subst ho
      rw [lookupEnv_cons_self] at he
      cases he
      rw [lookupV_cons_self] at ht
      cases ht
      exact hval
    · rw [lookupEnv_cons_ne _ _ _ _ ho] at he
      rw [lookupV_cons_ne _ _ _ _ ho] at ht
      exact hpres nw t (hinv.env_rel o nw he t ht)
  · intro o nw he
    by_cases ho : o = n.name
    · subst ho
      rw [lookupEnv_cons_self] at he
      cases he
      exact Or.inr hfin
    · rw [lookupEnv_cons_ne _ _ _ _ ho] at he
      rcases hinv.env_spec o nw he with h | ⟨k, hk, hk2⟩
      · exact Or.inl h
      · exact Or.inr ⟨k, hk, by show k < ctr'; omega⟩
  · intro nm t ht
    by_cases hnm : nm = n.name
    · subst hnm; simp
    · rw [lookupV_cons_ne _ _ _ _ hnm] at ht
      have := hinv.dom nm t ht
      simp only [List.map_append, List.mem_append]
      exact Or.inl this

theorem exceptMap_ok_inv {α β : Type} {x : Except RErr α} {f : α → β}
    {b : β} (h : x.map f = .ok b) : ∃ a, x = .ok a ∧ b = f a := by
  cases x with
  | error e => exact absurd h (by simp [Except.map])
  | ok a => exact ⟨a, rfl, (Except.ok.inj h).symm⟩

/-- Success form of `execNode` on an einsum call-site. -/
theorem execNode_einsum_ok (ip : Interp) (st : ExecSt) (n : Node)
    (hein : isEinsumCall n = true) (cs : List Char) (tl : List Arg)
    (hargs : n.args = .lit cs :: tl) {spec : EinSpec} {ts : List Tensor}
    (hpe : parseEinstr cs = some spec)
    (hts : tl.mapM (fun a => (resolveObj st.venv a).bind asTensor) = some ts)
    (hcond : spec.inputs.length = ts.length ∧
      ((spec.inputs.zip ts).all
        fun p => p.1.length == p.2.shape.length) = true) :
    execNode ip st n
      = some ⟨(n.name, einsumEval (spec.inputs.zip ts) spec.out) :: st.venv,
              st.inputs, st.ret⟩ := by
  rw [execNode_einsum_eq ip st n hein cs tl hargs, hpe, hts]
  show (if spec.inputs.length = ts.length ∧
      (spec.inputs.zip ts).all (fun p => p.1.length == p.2.shape.length) then
      some (⟨(n.name, einsumEval (spec.inputs.zip ts) spec.out) :: st.venv,
             st.inputs, st.ret⟩ : ExecSt)
    else none) = _
  rw [if_pos hcond]

/-- One copied node executes in the rewritten graph exactly as the original
node does in the input graph, re-establishing the simulation invariant. -/
theorem copy_sim (ip : Interp) (g : Graph) (pre : List Node) (n : Node)
    (w : List NName) (hun : userNamed n = true)
    (stR stR1 : RSt) (stO stO1 stN : ExecSt)
    (hinv : SimInv g pre stR stO stN)
    (hnameO : lookupV stO.venv n.name = none)
    (hcopy : copyInto stR n w = .ok stR1)
    (hexec : execNode ip stO n = some stO1) :
    ∃ m stN1, stR1.out = stR.out ++ [m] ∧
      execNode ip stN m = some stN1 ∧
      SimInv g (pre ++ [n]) stR1 stO1 stN1 := by
  obtain ⟨m, hnc, hst1⟩ := copyInto_ok hcopy
  obtain ⟨margs, mkwargs, hmargs, hmkwargs, hmeq⟩ := node_copy_ok hnc
  have hmname : m.name = n.name := by rw [hmeq]
  have hmop : m.op = n.op := by rw [hmeq]
  have hmtarget : m.target = n.target := by rw [hmeq]
  have hmargs2 : m.args = margs := by rw [hmeq]
  have hmkwargs2 : m.kwargs = mkwargs := by rw [hmeq]
  have heinm : isEinsumCall m = isEinsumCall n := by
    unfold isEinsumCall
    rw [hmop, hmtarget]
  subst hst1
  refine ⟨m, ?_⟩
  by_cases hop1 : n.op = "placeholder"
  · -- placeholder
    rw [execNode_ph_eq ip stO n hop1] at hexec
    cases hins : stO.inputs with
    | nil => rw [hins] at hexec; exact absurd hexec (by simp)
    | cons t ts =>
      rw [hins] at hexec
      have hO1 := Option.some.inj hexec
      refine ⟨⟨(n.name, t) :: stN.venv, ts, stN.ret⟩, rfl, ?_, ?_⟩
      · rw [execNode_ph_eq ip stN m (hmop.trans hop1), hinv.inputs_eq, hins,
            hmname]
      · rw [← hO1, hmname]
        exact simInv_copy_bind hun hinv hnameO t rfl _ _
  by_cases hop2 : n.op = "output"
  · -- the output node
    rw [execNode_out_eq ip stO n hop2] at hexec
    cases hargs : n.args with
    | nil => rw [hargs] at hexec; exact absurd hexec (by simp)
    | cons a rest =>
      cases rest with
      | cons a2 rest2 => rw [hargs] at hexec; exact absurd hexec (by simp)
      | nil =>
        rw [hargs] at hexec
        have hexec2 : (resolveObj stO.venv a).map
            (fun o => (⟨stO.venv, stO.inputs,
              match stO.ret with
              | none => some o
              | some r => some r⟩ : ExecSt)) = some stO1 := hexec
        obtain ⟨o, hro, hO1⟩ := optionMap_some_inv hexec2
        have hF := mapM_ok_forall2 hmargs
        rw [hargs] at hF
        cases hF with
        | cons hab hnil =>
          rename_i a' margs'
          cases hnil
          have hro' : resolveObj stN.venv a' = some o :=
            resolveObj_rel hinv.env_rel hab hro
          refine ⟨⟨stN.venv, stN.inputs,
              match stO.ret with | none => some o | some r => some r⟩,
            rfl, ?_, ?_⟩
          · rw [execNode_out_eq ip stN m (hmop.trans hop2), hmargs2]
            show (resolveObj stN.venv a').map
              (fun o => (⟨stN.venv, stN.inputs,
                match stN.ret with
                | none => some o
                | some r => some r⟩ : ExecSt)) = _
            rw [hinv.ret_eq, hro']
            rfl
          · rw [hO1, hmname]
            exact simInv_copy_nobind hinv hnameO _ _ _
  by_cases hein : isEinsumCall n = true
  · -- einsum call-site copied through the missing-shape fallback
    cases hargs : n.args with
    | nil =>
      unfold execNode at hexec
      rw [if_neg (by simp [hop1]), if_neg (by simp [hop2]), if_pos hein,
          hargs] at hexec
      exact absurd hexec (by simp)
    | cons a0 tl =>
      cases a0 with
      | num i =>
        unfold execNode at hexec
        rw [if_neg (by simp [hop1]), if_neg (by simp [hop2]), if_pos hein,
            hargs] at hexec
        exact absurd hexec (by simp)
      | node nm =>
        unfold execNode at hexec
        rw [if_neg (by simp [hop1]), if_neg (by simp [hop2]), if_pos hein,
            hargs] at hexec
        exact absurd hexec (by simp)
      | lit cs =>
        rw [execNode_einsum_eq ip stO n hein cs tl hargs] at hexec
        cases hpe : parseEinstr cs with
        | none => rw [hpe] at hexec; exact absurd hexec (by simp)
        | some spec =>
          rw [hpe] at hexec
          cases hts : tl.mapM
              (fun a => (resolveObj stO.venv a).bind asTensor) with
          | none => rw [hts] at hexec; exact absurd hexec (by simp)
          | some ts =>
            rw [hts] at hexec
            have hexec2 : (if spec.inputs.length = ts.length ∧
                (spec.inputs.zip ts).all
                  (fun p => p.1.length == p.2.shape.length) then
                some (⟨(n.name, einsumEval (spec.inputs.zip ts) spec.out)
                  :: stO.venv, stO.inputs, stO.ret⟩ : ExecSt)
              else none) = some stO1 := hexec
            split at hexec2
            · rename_i hcond
              have hO1 := Option.some.inj hexec2
              have hF := mapM_ok_forall2 hmargs
              rw [hargs] at hF
              cases hF with
              | cons hab hFt =>
                rename_i b margs'
                have hb : b = .lit cs := mapArg_lit_inv hab
                subst hb
                have hts' : margs'.mapM
                    (fun a => (resolveObj stN.venv a).bind asTensor)
                    = some ts := by
                  refine mapM_rel_option ?_ hFt hts
                  intro a b hab2 c hc
                  obtain ⟨o, ho1, ho2⟩ := optionBind_some_inv hc
                  show (resolveObj stN.venv b).bind asTensor = some c
                  rw [resolveObj_rel hinv.env_rel hab2 ho1]
                  exact ho2
                refine ⟨⟨(n.name, einsumEval (spec.inputs.zip ts) spec.out)
                    :: stN.venv, stN.inputs, stN.ret⟩, rfl, ?_, ?_⟩
                · have hx := execNode_einsum_ok ip stN m (heinm.trans hein)
                    cs margs' (by rw [hmargs2]) hpe hts' hcond
                  rw [hmname] at hx
                  exact hx
                · rw [← hO1, hmname]
                  exact simInv_copy_bind hun hinv hnameO _ hinv.inputs_eq _ _
            · exact absurd hexec2 (by simp)
  · -- uninterpreted node
    have heinF : isEinsumCall n = false := Bool.eq_false_iff.mpr hein
    rw [execNode_gen_eq ip stO n hop1 hop2 heinF] at hexec
    cases hobjs : n.args.mapM (resolveObj stO.venv) with
    | none => rw [hobjs] at hexec; exact absurd hexec (by simp)
    | some objs =>
      rw [hobjs] at hexec
      cases hkvs : n.kwargs.mapM
          (fun p => (resolveObj stO.venv p.2).map ((p.1, ·))) with
      | none => rw [hkvs] at hexec; exact absurd hexec (by simp)
      | some kvs =>
        rw [hkvs] at hexec
        have hexec2 : (ip n.op n.target objs kvs).map
            (fun t => (⟨(n.name, t) :: stO.venv, stO.inputs,
              stO.ret⟩ : ExecSt)) = some stO1 := hexec
        obtain ⟨t, hipt, hO1⟩ := optionMap_some_inv hexec2
        have hobjs' : margs.mapM (resolveObj stN.venv) = some objs := by
          refine mapM_rel_option ?_ (mapM_ok_forall2 hmargs) hobjs
          intro a b hab c hc
          exact resolveObj_rel hinv.env_rel hab hc
        have hkvs' : mkwargs.mapM
            (fun p => (resolveObj stN.venv p.2).map ((p.1, ·)))
            = some kvs := by
          refine mapM_rel_option ?_ (mapM_ok_forall2 hmkwargs) hkvs
          intro p q hpq c hc
          obtain ⟨a', ha1, ha2⟩ := exceptMap_ok_inv hpq
          obtain ⟨o, ho1, ho2⟩ := optionMap_some_inv hc
          subst ha2
          subst ho2
          show (resolveObj stN.venv a').map ((p.1, ·)) = some (p.1, o)
          rw [resolveObj_rel hinv.env_rel ha1 ho1]
          rfl
        refine ⟨⟨(n.name, t) :: stN.venv, stN.inputs, stN.ret⟩, rfl, ?_, ?_⟩
        · rw [execNode_gen_eq ip stN m (by rw [hmop]; exact hop1)
              (by rw [hmop]; exact hop2) (heinm.trans heinF),
            hmargs2, hmkwargs2, hobjs', hkvs']
          show (ip m.op m.target objs kvs).map
              (fun t => (⟨(m.name, t) :: stN.venv, stN.inputs,
                stN.ret⟩ : ExecSt))
            = some ⟨(n.name, t) :: stN.venv, stN.inputs, stN.ret⟩
          rw [hmop, hmtarget, hipt, hmname]
          rfl
        · rw [hO1, hmname]
          exact simInv_copy_bind hun hinv hnameO t hinv.inputs_eq _ _

theorem mapM_some_forall2 {α β : Type} {f : α → Option β} :
    ∀ {l : List α} {res : List β}, l.mapM f = some res →
      List.Forall₂ (fun a b => f a = some b) l res := by
  intro l
  induction l with
  | nil => intro res h; cases h; exact List.Forall₂.nil
  | cons a l ih =>
    intro res h
    rw [List.mapM_cons] at h
    cases hf : f a with
    | none => rw [hf] at h; exact absurd h (by simp [Option.bind, bind])
    | some b =>
      rw [hf] at h
      cases hm : l.mapM f with
      | none =>
        rw [hm] at h
        exact absurd h (by simp [Option.bind, bind, pure])
      | some bs =>
        rw [hm] at h
        have : res = b :: bs := by
          simpa [Option.bind, bind, pure] using h.symm
        subst this
        exact List.Forall₂.cons hf (ih hm)

theorem execNodes_cons_some {ip : Interp} {n : Node} {ns : List Node}
    {st st' : ExecSt} (h : execNodes ip (n :: ns) st = some st') :
    ∃ s1, execNode ip st n = some s1 ∧ execNodes ip ns s1 = some st' := by
  simp only [execNodes] at h
  exact optionBind_some_inv h

/-- The final name of an emitted chain is a generated name spent below the
returned counter. -/
theorem emitChainAux_final_spec (q : List Char × Arg)
    (qs : List (List Char × Arg)) (out : List Char) (ctr : Nat) :
    ∃ k, (emitChainAux q qs out ctr).2.1 = NName.gen k ∧
      ctr ≤ k ∧ k < (emitChainAux q qs out ctr).2.2 := by
  have hmem := emitChainAux_final_mem q qs out ctr
  obtain ⟨m, hm, hname⟩ := List.mem_map.mp hmem
  obtain ⟨⟨k, hk, h1, h2⟩, _⟩ := emitChainAux_names q qs out ctr m hm
  exact ⟨k, by rw [← hname, hk], h1, h2⟩

/-- The operands handed to the emitted chain stand, through the new
environment, for exactly the tensors the original einsum consumed. -/
theorem chainRel_zip {env : List (NName × NName)}
    {vO vN : List (NName × Tensor)}
    (hC : ∀ o nw, lookupEnv env o = some nw →
      ∀ t, lookupV vO o = some t → lookupV vN nw = some t) :
    ∀ (ss : List (List Char)) (args pargs : List Arg) (ts : List Tensor),
      List.Forall₂ (fun a b => mapArg env a = .ok b) args pargs →
      List.Forall₂ (fun a t => (resolveObj vO a).bind asTensor = some t)
        args ts →
      ss.length = ts.length →
      ((ss.zip ts).all fun p => p.1.length == p.2.shape.length) = true →
      (ss.all fun s => s.all Char.isAlpha) = true →
      List.Forall₂ (ChainRel vN) (ss.zip pargs) (ss.zip ts) := by
  intro ss
  induction ss with
  | nil =>
    intro args pargs ts _ _ _ _ _
    exact List.Forall₂.nil
  | cons s ss2 ih =>
    intro args pargs ts hF1 hF2 hlen hrank halpha
    cases ts with
    | nil => exact absurd hlen (by simp)
    | cons t ts2 =>
      cases hF2 with
      | cons hat hF2t =>
        rename_i a args2
        cases hF1 with
        | cons hab hF1t =>
          rename_i b pargs2
          simp only [List.zip_cons_cons, List.all_cons, Bool.and_eq_true]
            at hrank
          simp only [List.all_cons, Bool.and_eq_true] at halpha
          refine List.Forall₂.cons ?_
            (ih args2 pargs2 ts2 hF1t hF2t
              (by simp only [List.length_cons] at hlen; omega)
              hrank.2 halpha.2)
          obtain ⟨o, ho1, ho2⟩ := optionBind_some_inv hat
          have hov : o = .tensor t := asTensor_some_inv ho2
          subst hov
          refine ⟨rfl, resolveObj_rel hC hab ho1, ?_, ?_⟩
          · exact eq_of_beq hrank.1
          · intro c hc
            exact List.all_eq_true.mp halpha.1 c hc

/-- One rewrite step is simulated by executing the nodes it appends: the
original node's effect on the old execution state is matched, through the
environment mapping, by the appended nodes' effect on the new one. -/
theorem stepNode_sim (ip : Interp) (g : Graph) (pre post : List Node)
    (n : Node) (hg : g = pre ++ n :: post)
    (hnodup : (g.map Node.name).Nodup) (huser : g.all userNamed = true)
    (stR stR1 : RSt) (stO stO1 stN : ExecSt)
    (hinv : SimInv g pre stR stO stN)
    (hstep : stepNode g stR n = .ok stR1)
    (hexec : execNode ip stO n = some stO1) :
    ∃ Δ stN1, stR1.out = stR.out ++ Δ ∧
      execNodes ip Δ stN = some stN1 ∧
      SimInv g (pre ++ [n]) stR1 stO1 stN1 := by
  have hun : userNamed n = true :=
    List.all_eq_true.mp huser n (by rw [hg]; simp)
  have hnotpre : n.name ∉ pre.map Node.name := by
    intro hmem
    rw [hg, List.map_append] at hnodup
    exact (List.nodup_append.mp hnodup).2.2 hmem (by simp)
  have hnameO : lookupV stO.venv n.name = none := by
    cases h : lookupV stO.venv n.name with
    | none => rfl
    | some t => exact absurd (hinv.dom n.name t h) hnotpre
  unfold stepNode at hstep
  by_cases hein : isEinsumCall n = true
  · rw [if_pos hein] at hstep
    cases hsh : argShapes g (n.args.drop 1) with
    | none =>
      rw [hsh] at hstep
      obtain ⟨m, stN1, h1, h2, h3⟩ := copy_sim ip g pre n [n.name] hun
        stR stR1 stO stO1 stN hinv hnameO hstep hexec
      exact ⟨[m], stN1, h1, by simp [execNodes, h2], h3⟩
    | some shapes =>
      rw [hsh] at hstep
      obtain ⟨cs, tl, spec, pargs, hargsE, hcp, hpargs, hst1⟩ :=
        expandEinsum_ok hstep
      obtain ⟨hpe, halphaI, halphaO, hlenS, hrankS, hsizes, hnodupO⟩ :=
        contract_path_ok_inv hcp
      subst hst1
      rw [execNode_einsum_eq ip stO n hein cs tl hargsE, hpe] at hexec
      cases hts : tl.mapM
          (fun a => (resolveObj stO.venv a).bind asTensor) with
      | none => rw [hts] at hexec; exact absurd hexec (by simp)
      | some ts =>
        rw [hts] at hexec
        have hexec2 : (if spec.inputs.length = ts.length ∧
            (spec.inputs.zip ts).all
              (fun p => p.1.length == p.2.shape.length) then
            some (⟨(n.name, einsumEval (spec.inputs.zip ts) spec.out)
              :: stO.venv, stO.inputs, stO.ret⟩ : ExecSt)
          else none) = some stO1 := hexec
        split at hexec2
        · rename_i hcond
          have hO1 := Option.some.inj hexec2
          have hF := mapM_ok_forall2 hpargs
          rw [hargsE] at hF
          cases hF with
          | cons hab hFt =>
            rename_i b pargs2
            have hb : b = .lit cs := mapArg_lit_inv hab
            subst hb
            have hlen2 : pargs2.length = ts.length := by
              have h1 := List.Forall₂.length_eq hFt
              have h2 := mapM_option_length hts
              omega
            cases hsi : spec.inputs with
            | nil => exact absurd hsi (parseEinstr_inputs_ne_nil hpe)
            | cons s1 srest =>
              cases hts0 : ts with
              | nil =>
                rw [hsi, hts0] at hcond
                exact absurd hcond.1 (by simp)
              | cons t1 trest =>
                cases hp0 : pargs2 with
                | nil => rw [hts0, hp0] at hlen2; exact absurd hlen2 (by simp)
                | cons a1 arest =>
                  have hFall : List.Forall₂ (ChainRel stN.venv)
                      (spec.inputs.zip pargs2) (spec.inputs.zip ts) :=
                    chainRel_zip hinv.env_rel spec.inputs tl pargs2 ts hFt
                      (mapM_some_forall2 hts) hcond.1 hcond.2 halphaI
                  rw [hsi, hts0, hp0] at hFall
                  cases hFall with
                  | cons hq hqs =>
                    have houtalpha : ∀ c ∈ spec.out, c.isAlpha = true :=
                      fun c hc => List.all_eq_true.mp halphaO c hc
                    obtain ⟨venv', hexecC, hvalC, hpresC, hfreshC⟩ :=
                      execChainAux ip (srest.zip arest) (srest.zip trest)
                        (s1, a1) (s1, t1) spec.out stR.ctr stN hq hqs
                        houtalpha hinv.fresh
                    have hchain : chainValAux (s1, t1) (srest.zip trest)
                        spec.out = einsumEval (spec.inputs.zip ts) spec.out
                        := by
                      have hrk : ∀ p ∈ (spec.inputs.zip ts),
                          p.1.length = p.2.shape.length := by
                        intro p hp
                        exact eq_of_beq
                          (List.all_eq_true.mp hcond.2 p hp)
                      rw [hsi, hts0]
                      rw [hsi, hts0] at hrk
                      show chainVal ((s1, t1) :: srest.zip trest) spec.out
                        = einsumEval ((s1, t1) :: srest.zip trest) spec.out
                      exact chainVal_eq _ _ hrk
                    rw [hchain] at hvalC
                    refine ⟨(emitChainAux (s1, a1) (srest.zip arest)
                        spec.out stR.ctr).1,
                      ⟨venv', stN.inputs, stN.ret⟩, ?_, hexecC, ?_⟩
                    · exact rfl
                    · rw [← hO1]
                      show SimInv g (pre ++ [n])
                        ⟨stR.out ++ (emitChainAux (s1, a1) (srest.zip arest)
                            spec.out stR.ctr).1,
                         (n.name, (emitChainAux (s1, a1) (srest.zip arest)
                            spec.out stR.ctr).2.1) :: stR.env,
                         (emitChainAux (s1, a1) (srest.zip arest) spec.out
                            stR.ctr).2.2,
                         stR.warns⟩
                        ⟨(n.name, einsumEval (spec.inputs.zip ts) spec.out)
                            :: stO.venv, stO.inputs, stO.ret⟩
                        ⟨venv', stN.inputs, stN.ret⟩
                      obtain ⟨k, hk1, hk2, hk3⟩ := emitChainAux_final_spec
                        (s1, a1) (srest.zip arest) spec.out stR.ctr
                      exact simInv_expand hun hinv hnameO _ _
                        ⟨k, hk1, hk3⟩ (le_trans hk2 (le_of_lt hk3))
                        hvalC hpresC hfreshC _ _
        · exact absurd hexec2 (by simp)
  · rw [if_neg hein] at hstep
    obtain ⟨m, stN1, h1, h2, h3⟩ := copy_sim ip g pre n [] hun
      stR stR1 stO stO1 stN hinv hnameO hstep hexec
    exact ⟨[m], stN1, h1, by simp [execNodes, h2], h3⟩

/-- The whole rewrite fold is simulated: processing a suffix of the input
graph while executing it in the old state is matched by executing the nodes
the rewrite appends, preserving the simulation invariant. -/
theorem processNodes_sim (ip : Interp) (g : Graph)
    (hnodup : (g.map Node.name).Nodup) (huser : g.all userNamed = true) :
    ∀ (post pre : List Node), g = pre ++ post →
      ∀ (stR stR' : RSt) (stO stO' stN : ExecSt),
        SimInv g pre stR stO stN →
        processNodes g post stR = .ok stR' →
        execNodes ip post stO = some stO' →
        ∃ Δ stN', stR'.out = stR.out ++ Δ ∧
          execNodes ip Δ stN = some stN' ∧
          SimInv g (pre ++ post) stR' stO' stN' := by
  intro post
  induction post with
  | nil =>
    intro pre hg stR stR' stO stO' stN hinv hproc hexec
    cases hproc
    cases hexec
    exact ⟨[], stN, by simp, rfl, by rw [List.append_nil]; exact hinv⟩
  | cons n ns ih =>
    intro pre hg stR stR' stO stO' stN hinv hproc hexec
    obtain ⟨stR1, h1, h2⟩ := processNodes_cons_ok hproc
    obtain ⟨stO1, hx1, hx2⟩ := execNodes_cons_some hexec
    obtain ⟨Δ1, stN1, ho1, he1, hinv1⟩ :=
      stepNode_sim ip g pre ns n hg hnodup huser stR stR1 stO stO1 stN
        hinv h1 hx1
    obtain ⟨Δ2, stN', ho2, he2, hinv2⟩ :=
      ih (pre ++ [n]) (by rw [hg]; simp) stR1 stR' stO1 stO' stN1
        hinv1 h2 hx2
    refine ⟨Δ1 ++ Δ2, stN', ?_, ?_, ?_⟩
    · rw [ho2, ho1, List.append_assoc]
    · rw [execNodes_append, he1]
      exact he2
    · have hpp : (pre ++ [n]) ++ ns = pre ++ n :: ns := by simp
      rw [← hpp]
      exact hinv2

/-- C1: the rewrite preserves execution semantics.  For every input graph
with distinct, user-assigned node names (as traced graphs have), if the
rewrite succeeds and the original graph executes to a result on given
inputs, then the rewritten graph executes to the very same result — every
optimized einsum call-site is replaced by a chain of elementary binary
contractions computing a mathematically equal tensor (exact equality in the
integer-tensor semantics, which models "within floating-point tolerance"),
and all other observable behaviour is untouched. -/
theorem optimize_preserves_semantics (ip : Interp) (g g' : Graph)
    (w : List NName) (inputs : List Tensor) (r : Obj)
    (hnodup : (g.map Node.name).Nodup)
    (huser : g.all userNamed = true)
    (hopt : optimize_einsums_graph g = .ok (g', w))
    (hexec : execute ip g inputs = some r) :
    execute ip g' inputs = some r := by
  obtain ⟨stF, hproc, hlint, hg', hw⟩ := optimize_ok_inv hopt
  unfold execute at hexec
  obtain ⟨stO, hO, hret⟩ := optionBind_some_inv hexec
  have hinv0 : SimInv g [] initRSt ⟨[], inputs, none⟩ ⟨[], inputs, none⟩ := by
    refine ⟨rfl, rfl, ?_, ?_, ?_, ?_⟩
    · intro o nw he
      exact absurd he (by simp [lookupEnv, initRSt])
    · intro o nw he
      exact absurd he (by simp [lookupEnv, initRSt])
    · intro j hj
      rfl
    · intro nm t ht
      exact absurd ht (by simp [lookupV])
  obtain ⟨Δ, stN', hΔ, hN, hinvF⟩ :=
    processNodes_sim ip g hnodup huser g [] rfl initRSt stF
      ⟨[], inputs, none⟩ stO ⟨[], inputs, none⟩ hinv0 hproc hO
  have hgΔ : g' = Δ := by
    rw [hg', hΔ]
    rfl
  unfold execute
  rw [hgΔ, hN]
  show stN'.ret = some r
  rw [hinvF.ret_eq]
  exact hret

/-- The object the original fusable test graph computes on the concrete
inputs `tX, tY`. -/
def c1Res : Obj := (execute interp0 fusableG [tX, tY]).getD (Obj.int 0)

theorem optimize_preserves_semantics_witness :
    execute interp0 fusableOpt.1 [tX, tY] = some c1Res :=
  optimize_preserves_semantics interp0 fusableG fusableOpt.1 fusableOpt.2
    [tX, tY] c1Res (by decide) (by decide) (by decide) rfl
